import Mathlib

/-!
Shallow embedding of the Lua-skyla runtime core — the hybrid array/hash table
(src/src/ltable.rs), the protected-call machinery (src/src/ldo.rs), the
coroutine library (src/src/lcorolib.rs) and the garbage-collector core
(src/src/lgc.rs) — together with theorems checking the specification's
claims about these modules.

Modelling conventions:
* Rust usize/u8 counters become Nat; i64 keys become Int (no claim exercises
  i64 overflow).
* f64 is carried only as a table key and only ever compared for equality by
  the embedded code, never used arithmetically; it is modeled by its 64-bit
  pattern as a Nat.  (The source derives Eq/Hash for a float-carrying enum,
  which real Rust rejects, so bit-pattern equality is the closest reading.)
* HashMap<TableKey, V> becomes an association list with first-match lookup,
  replace-or-append insert and filter removal; iteration order of the hash
  part is engine-defined, and the association order plays that role.
* std::panic::catch_unwind of a mutating closure becomes a function returning
  the mutated state together with a "panicked" flag; mutations made before
  the panic persist, exactly as with AssertUnwindSafe(&mut _).
-/

namespace Skyla

/-- GC type tags (the GCType enum used by lgc.rs). -/
inductive GCType where
  | Table | LClosure | CClosure | Str | UserData
  deriving DecidableEq, Repr

/-- GC object header, from lgc.rs (struct GCObject).  The embedded operations
(color tests, sweep, barrier) read and write only the mark byte; the
reference-payload fields (table, lclosure, cclosure, env) are read by no
embedded operation and are omitted.  In the Rust code GCObject is cloned by
value everywhere (gray lists, table keys), so structural equality is the
faithful notion of sameness. -/
structure GCObject where
  marked : Nat
  gctype : GCType
  deriving DecidableEq, Repr

/-- Bit pattern of an f64 (see the module comment: the embedded code only
compares float keys for equality). -/
abbrev FloatRep := Nat

/-- Lua runtime value as used by ltable.rs: the constructors matched by
Table::get/set/remove/next plus Nil (used elsewhere in the repo, e.g.
lstate.rs), which Table's key conversion sends through its fallback arm.
The null raw pointer is pattern 0. -/
inductive LuaValue where
  | Nil
  | Bool (b : Bool)
  | Int (i : Int)
  | Float (f : FloatRep)
  | Str (s : String)
  | Pointer (p : Nat)
  | Object (o : GCObject)
  deriving DecidableEq, Repr

/-- TableKey: all valid Lua table keys (ltable.rs). -/
inductive TableKey where
  | Int (i : Int)
  | Float (f : FloatRep)
  | Str (s : String)
  | Bool (b : Bool)
  | Ptr (p : Nat)
  | Obj (o : GCObject)
  deriving DecidableEq, Repr

/-- TableKey::from_lua: note the fallback arm sends every non-key value
(Nil in this model) to the null pointer key. -/
def TableKey.from_lua : LuaValue → TableKey
  | .Int i => .Int i
  | .Float f => .Float f
  | .Str s => .Str s
  | .Bool b => .Bool b
  | .Pointer p => .Ptr p
  | .Object o => .Obj o
  | .Nil => .Ptr 0

/-- TableKey::to_lua. -/
def TableKey.to_lua : TableKey → LuaValue
  | .Int i => .Int i
  | .Float f => .Float f
  | .Str s => .Str s
  | .Bool b => .Bool b
  | .Ptr p => .Pointer p
  | .Obj o => .Object o

/-- TableMode: normal, weak keys, weak values, or both (ltable.rs). -/
inductive TableMode where
  | Normal | WeakKeys | WeakValues | WeakBoth
  deriving DecidableEq, Repr

/-- First-match lookup in the association-list model of HashMap. -/
def hlookup : List (TableKey × LuaValue) → TableKey → Option LuaValue
  | [], _ => none
  | (k', v) :: rest, k => if k' = k then some v else hlookup rest k

/-- HashMap::insert: replace the value if the key is present, else append. -/
def hashInsert (l : List (TableKey × LuaValue)) (k : TableKey) (v : LuaValue) :
    List (TableKey × LuaValue) :=
  if (hlookup l k).isSome then
    l.map (fun p => if p.1 = k then (k, v) else p)
  else
    l ++ [(k, v)]

/-- HashMap::remove. -/
def hashRemove (l : List (TableKey × LuaValue)) (k : TableKey) :
    List (TableKey × LuaValue) :=
  l.filter (fun p => p.1 ≠ k)

/-- Maximum array size for Lua tables (ltable.rs, MAX_ARRAY_SIZE = 1 << 24). -/
def MAX_ARRAY_SIZE : Nat := 1 <<< 24

/-- Table: dual array/hash structure, metatable, and GC integration
(ltable.rs, struct Table).  The Vec<Option<LuaValue>> array part is a list
of optional values (1-based Lua index i lives at list position i - 1). -/
structure Table where
  arr : List (Option LuaValue)
  hash : List (TableKey × LuaValue)
  metatable : Option GCObject
  mode : TableMode
  deriving DecidableEq, Repr

/-- Table::new. -/
def Table.new : Table := ⟨[], [], none, .Normal⟩

/-- Table::with_capacity: vec![None; array_cap] plus an empty hash part
(HashMap capacity has no observable content). -/
def Table.with_capacity (array_cap : Nat) : Table :=
  ⟨List.replicate array_cap none, [], none, .Normal⟩

/-- Table::get: integer keys inside the array bound read the array part
(array.get(idx).and_then(as_ref)); all other keys go through the hash part. -/
def Table.get (t : Table) (key : LuaValue) : Option LuaValue :=
  match key with
  | .Int i =>
      if 0 < i ∧ i.toNat ≤ t.arr.length then t.arr.getD (i.toNat - 1) none
      else hlookup t.hash (TableKey.from_lua key)
  | _ => hlookup t.hash (TableKey.from_lua key)

/-- Table::set: positive integer keys write the array part in place when
inside the bound, grow the array (resize with None padding) when the index is
below MAX_ARRAY_SIZE, and otherwise fall through to the hash part, as do all
non-integer keys. -/
def Table.set (t : Table) (key : LuaValue) (value : LuaValue) : Table :=
  match key with
  | .Int i =>
      if 0 < i then
        let idx := i.toNat - 1
        if idx < t.arr.length then
          { t with arr := t.arr.set idx (some value) }
        else if idx < MAX_ARRAY_SIZE then
          let grown := t.arr ++ List.replicate (idx + 1 - t.arr.length) none
          { t with arr := grown.set idx (some value) }
        else
          { t with hash := hashInsert t.hash (TableKey.from_lua key) value }
      else
        { t with hash := hashInsert t.hash (TableKey.from_lua key) value }
  | _ => { t with hash := hashInsert t.hash (TableKey.from_lua key) value }

/-- Table::remove. -/
def Table.remove (t : Table) (key : LuaValue) : Table :=
  match key with
  | .Int i =>
      if 0 < i ∧ i.toNat ≤ t.arr.length then
        { t with arr := t.arr.set (i.toNat - 1) none }
      else
        { t with hash := hashRemove t.hash (TableKey.from_lua key) }
  | _ => { t with hash := hashRemove t.hash (TableKey.from_lua key) }

/-- Reading of the source's v.is_some() on a hash value (LuaValue has no such
method in Rust — the call does not compile; hash values are always stored, so
"present" is the closest reading). -/
def hvIsSome (_v : LuaValue) : Bool := true

/-- Array-part scan of Table::next: walk (index, slot) pairs carrying the
source's started flag; the first occupied slot is returned when started,
otherwise it merely sets started. -/
def arrScan : List (Nat × Option LuaValue) → Bool → Option (LuaValue × LuaValue)
  | [], _ => none
  | (i, some v) :: rest, started =>
      if started then some (.Int ((i + 1 : Nat) : Int), v) else arrScan rest true
  | (_, none) :: rest, started => arrScan rest started

/-- Hash-part scan of Table::next: return the entry after the found flag is
set; the flag is set by passing an entry whose to_lua equals the last key. -/
def hashScan (last : Option LuaValue) :
    List (TableKey × LuaValue) → Bool → Option (LuaValue × LuaValue)
  | [], _ => none
  | (k, v) :: rest, found =>
      let kl := TableKey.to_lua k
      if found ∧ hvIsSome v then some (kl, v)
      else hashScan last rest (found || (some kl == last))

/-- Table::next: array part first, starting the scan at position idx (the
last integer key's value, i.e. one slot past that key — the enumerate().skip
in the source), then the hash part. -/
def Table.next (t : Table) (last_key : Option LuaValue) :
    Option (LuaValue × LuaValue) :=
  let started := last_key.isNone
  let idx : Nat :=
    match last_key with
    | some (.Int i) => if 0 < i then i.toNat else 0
    | _ => 0
  match arrScan (t.arr.enum.drop idx) started with
  | some r => some r
  | none => hashScan last_key t.hash last_key.isNone

/-- The countdown loop of Table::len: while n > 0 and array[n-1] is None,
decrement n. -/
def lenFrom (arr : List (Option LuaValue)) : Nat → Nat
  | 0 => 0
  | n + 1 => if arr.getD n none = none then lenFrom arr n else n + 1

/-- Table::len (the Lua # operator: trailing scan of the array part only). -/
def Table.len (t : Table) : Nat :=
  lenFrom t.arr t.arr.length

/-- The key/value pairs contributed by the array part during rehash
(indices with Some values, as 1-based integer keys). -/
def arrayPairs (arr : List (Option LuaValue)) : List (LuaValue × LuaValue) :=
  arr.enum.filterMap
    (fun p => p.2.map (fun v => (LuaValue.Int ((p.1 + 1 : Nat) : Int), v)))

/-- One step of the maximum-key scan in Table::rehash. -/
def computeNStep (n : Nat) (kv : LuaValue × LuaValue) : Nat :=
  match kv.1 with
  | .Int i => if 0 < i then Nat.max n i.toNat else n
  | _ => n

/-- The n computed by Table::rehash: maximum positive integer key occurring
in the collected pairs (the source's >50%-occupancy counter is computed but
never consulted). -/
def computeN (all : List (LuaValue × LuaValue)) : Nat :=
  all.foldl computeNStep 0

/-- All key/value pairs of a table as collected by Table::rehash: the array
part first (as 1-based integer keys), then the hash part. -/
def allPairs (t : Table) : List (LuaValue × LuaValue) :=
  arrayPairs t.arr ++ t.hash.map (fun p => (TableKey.to_lua p.1, p.2))

/-- One migration step of Table::rehash's rebuild loop: an integer key in
[1, n] writes the new array, everything else inserts into the new hash. -/
def rehashStep (n : Nat)
    (acc : List (Option LuaValue) × List (TableKey × LuaValue))
    (kv : LuaValue × LuaValue) :
    List (Option LuaValue) × List (TableKey × LuaValue) :=
  match kv.1 with
  | .Int i =>
      if 0 < i ∧ i.toNat ≤ n then (acc.1.set (i.toNat - 1) (some kv.2), acc.2)
      else (acc.1, hashInsert acc.2 (TableKey.from_lua kv.1) kv.2)
  | _ => (acc.1, hashInsert acc.2 (TableKey.from_lua kv.1) kv.2)

/-- Table::rehash: collect all pairs (array part then hash part), size the
new array by the maximum positive integer key, and migrate. -/
def Table.rehash (t : Table) : Table :=
  let all := allPairs t
  let n := computeN all
  let rebuilt := all.foldl (rehashStep n) (List.replicate n none, [])
  { t with arr := rebuilt.1, hash := rebuilt.2 }

/-- A LuaValue usable as a genuine table key: every value except Nil
(TableKey::from_lua collapses non-key values onto the null pointer key). -/
def isTableKey : LuaValue → Bool
  | .Nil => false
  | _ => true

/-- First-some choice on options (used to state fold characterizations). -/
def oor {α : Type} (a b : Option α) : Option α :=
  match a with
  | some v => some v
  | none => b

/-- Whether a collected rehash pair migrates to the new array part: an
integer key in [1, n]. -/
def migratesToArr (n : Nat) (kv : LuaValue × LuaValue) : Bool :=
  match kv.1 with
  | .Int i => decide (0 < i ∧ i.toNat ≤ n)
  | _ => false

/-- The 0-based array slot addressed by a collected pair's integer key. -/
def keyIdx (kv : LuaValue × LuaValue) : Nat :=
  match kv.1 with
  | .Int i => i.toNat - 1
  | _ => 0

/-- Whether a table key would migrate to the array part during a rehash with
array bound n. -/
def keyMigrates (n : Nat) (q : TableKey) : Bool :=
  match q with
  | .Int i => decide (0 < i ∧ i.toNat ≤ n)
  | _ => false

/-- The array component of the rehash rebuild loop in isolation. -/
def arrFold (n : Nat) (init : List (Option LuaValue))
    (l : List (LuaValue × LuaValue)) : List (Option LuaValue) :=
  l.foldl
    (fun a kv =>
      if migratesToArr n kv then a.set (keyIdx kv) (some kv.2) else a) init

/-- The hash component of the rehash rebuild loop in isolation. -/
def hashFold (n : Nat) (init : List (TableKey × LuaValue))
    (l : List (LuaValue × LuaValue)) : List (TableKey × LuaValue) :=
  l.foldl
    (fun h kv =>
      if migratesToArr n kv then h
      else hashInsert h (TableKey.from_lua kv.1) kv.2) init

/-- The last value a rebuild loop writes into array slot j. -/
def lastArrWrite (n : Nat) (l : List (LuaValue × LuaValue)) (j : Nat) :
    Option LuaValue :=
  (l.filterMap
    (fun kv =>
      if migratesToArr n kv ∧ keyIdx kv = j then some kv.2 else none)).getLast?

/-- The last value a rebuild loop inserts into the new hash under key q. -/
def lastHashWrite (n : Nat) (l : List (LuaValue × LuaValue)) (q : TableKey) :
    Option LuaValue :=
  (l.filterMap
    (fun kv =>
      if ¬migratesToArr n kv ∧ TableKey.from_lua kv.1 = q then some kv.2
      else none)).getLast?

/-- Recursive form of arrayPairs, carrying the running 0-based index (used
to reason about the enumerate-based definition). -/
def arrayPairsAux (s : Nat) : List (Option LuaValue) → List (LuaValue × LuaValue)
  | [] => []
  | none :: rest => arrayPairsAux (s + 1) rest
  | some v :: rest =>
      (LuaValue.Int ((s + 1 : Nat) : Int), v) :: arrayPairsAux (s + 1) rest

/-- The public table operations of the claims. -/
inductive TableOp where
  | set (k v : LuaValue)
  | remove (k : LuaValue)
  | rehash
  deriving DecidableEq, Repr

/-- Run one public operation. -/
def applyOp (t : Table) : TableOp → Table
  | .set k v => t.set k v
  | .remove k => t.remove k
  | .rehash => t.rehash

/-- Run a sequence of public operations. -/
def applyOps (t : Table) (ops : List TableOp) : Table :=
  ops.foldl applyOp t

/-- A table reachable from Table::new by public operations. -/
def Reachable (t : Table) : Prop :=
  ∃ ops : List TableOp, applyOps Table.new ops = t

/-- Structural invariant of reachable tables: hash keys are unique, and every
positive integer key residing in the hash part lies beyond both the array
bound and MAX_ARRAY_SIZE. -/
def WF (t : Table) : Prop :=
  (t.hash.map Prod.fst).Nodup ∧
  ∀ i : Int, 0 < i → (hlookup t.hash (TableKey.Int i)).isSome →
    t.arr.length < i.toNat ∧ MAX_ARRAY_SIZE < i.toNat

/-- Sequential set operations (the claim-C1 shape: sets then one rehash). -/
def applySets (ops : List (LuaValue × LuaValue)) : Table :=
  ops.foldl (fun t kv => t.set kv.1 kv.2) Table.new

/-- The last value set for a key by a sequence of set operations. -/
def lastVal (ops : List (LuaValue × LuaValue)) (k : LuaValue) :
    Option LuaValue :=
  (ops.filterMap (fun kv => if kv.1 = k then some kv.2 else none)).getLast?

/-! Garbage-collector core (src/src/lgc.rs). -/

/-- Maximum number of elements to sweep in each single step (lgc.rs). -/
def GCSWEEPMAX : Nat := 20

/-- GC color bits (lgc.rs). -/
def BLACKBIT : Nat := 0x01

def WHITE0BIT : Nat := 0x02

def WHITE1BIT : Nat := 0x04

def WHITEBITS : Nat := WHITE0BIT ||| WHITE1BIT

def MASKCOLORS : Nat := BLACKBIT ||| WHITEBITS

/-- makewhite (lgc.rs): (marked & !MASKCOLORS) | WHITE0BIT — unconditionally
white-0; the GlobalState argument of the source is unused and dropped here.
The complement is taken within the u8 mark byte. -/
def makewhite (o : GCObject) : GCObject :=
  { o with marked := (o.marked &&& (0xFF ^^^ MASKCOLORS)) ||| WHITE0BIT }

/-- set2gray (lgc.rs): clear all color bits. -/
def set2gray (o : GCObject) : GCObject :=
  { o with marked := o.marked &&& (0xFF ^^^ MASKCOLORS) }

/-- set2black (lgc.rs). -/
def set2black (o : GCObject) : GCObject :=
  { o with marked := (o.marked &&& (0xFF ^^^ WHITEBITS)) ||| BLACKBIT }

/-- iswhite (lgc.rs): either white bit set. -/
def iswhite (o : GCObject) : Bool := (o.marked &&& WHITEBITS) != 0

/-- isblack (lgc.rs). -/
def isblack (o : GCObject) : Bool := (o.marked &&& BLACKBIT) != 0

/-- isgray (lgc.rs). -/
def isgray (o : GCObject) : Bool := !iswhite o && !isblack o

/-- luaC_barrier (lgc.rs): a black object pointing at a white object is
moved back to gray; the enqueueing on the gray list announced by the
source's comment is absent from the code.  The referenced object v is only
inspected; the (possibly re-grayed) o is returned. -/
def luaC_barrier (o : GCObject) (v : GCObject) : GCObject :=
  if isblack o ∧ iswhite v then set2gray o else o

/-- The white flip at the end of the atomic phase (lgc.rs, atomic): the
current white alternates between the two white bits. -/
def atomicFlipWhite (current_white : Nat) : Nat :=
  if current_white = WHITE0BIT then WHITE1BIT else WHITE0BIT

/-- The loop of sweep_list (lgc.rs): at position i remove the object when it
is white (either white bit), else recolor it with makewhite and advance;
stop after max removals or at the end of the list.  The loop consults no
current-white designation. -/
def sweepLoop (max : Nat) (l : List GCObject) (i swept : Nat) : List GCObject :=
  if h : i < l.length ∧ swept < max then
    have hi : i < l.length := h.1
    if iswhite l[i] then sweepLoop max (l.eraseIdx i) i (swept + 1)
    else sweepLoop max (l.set i (makewhite l[i])) (i + 1) swept
  else l
termination_by l.length - i
decreasing_by
  · have := List.length_eraseIdx_of_lt hi
    omega
  · simp only [List.length_set]
    omega

/-- sweep_list (lgc.rs): run the loop from the front and report whether the
whole list ended up empty. -/
def sweep_list (l : List GCObject) (max : Nat) : List GCObject × Bool :=
  let l2 := sweepLoop max l 0 0
  (l2, l2.isEmpty)

/-- Number of white objects in a list (used to express sweep budgets). -/
def countWhite (l : List GCObject) : Nat :=
  (l.filter (fun o => iswhite o)).length

/-! Protected-call machinery (src/src/ldo.rs).  ldo.rs carries its own
value and state types, distinct from ltable's; they are embedded here in
their own namespace. -/

namespace Ldo

/-- LuaStatus (ldo.rs). -/
inductive LuaStatus where
  | Ok | Yield | RuntimeError | MemoryError | ErrorHandler
  deriving DecidableEq, Repr

/-- LuaValue (ldo.rs): the function payload (a fn pointer in the source) is
carried as an opaque id — no embedded operation calls through it. -/
inductive LV where
  | Nil
  | Boolean (b : Bool)
  | Number (bits : Nat)
  | Str (s : String)
  | Function (id : Nat)
  deriving DecidableEq, Repr

/-- LuaStack (ldo.rs): a backing vector of values plus a top index. -/
structure LuaStack where
  values : List LV
  top : Nat
  deriving DecidableEq, Repr

/-- LuaStack::new(size): size nil slots, top 0. -/
def LuaStack.new (size : Nat) : LuaStack := ⟨List.replicate size .Nil, 0⟩

/-- LuaStack::push: write in place below the backing length, else grow. -/
def LuaStack.push (s : LuaStack) (v : LV) : LuaStack :=
  if s.top < s.values.length then ⟨s.values.set s.top v, s.top + 1⟩
  else ⟨s.values ++ [v], s.top + 1⟩

/-- LuaStack::set: write in place when the index is inside the backing
vector, else do nothing. -/
def LuaStack.set (s : LuaStack) (idx : Nat) (v : LV) : LuaStack :=
  if idx < s.values.length then ⟨s.values.set idx v, s.top⟩ else s

/-- lua_State (ldo.rs): stack and status.  The callinfo chain and error
context fields are read and written by no operation embedded here and are
omitted. -/
structure lua_State where
  stack : LuaStack
  status : LuaStatus
  deriving DecidableEq, Repr

/-- lua_State::new(stack_size). -/
def lua_State.new (stack_size : Nat) : lua_State := ⟨LuaStack.new stack_size, .Ok⟩

/-- A protected body: mutates the state and either completes (flag false) or
panics (flag true); mutations made before the panic persist, as with the
source's catch_unwind + AssertUnwindSafe over a &mut lua_State. -/
abbrev ProtBody := lua_State → lua_State × Bool

/-- luaD_rawrunprotected (ldo.rs): catch the panic, report Ok or
RuntimeError; the state is whatever the body left behind. -/
def luaD_rawrunprotected (f : ProtBody) (L : lua_State) :
    lua_State × LuaStatus :=
  let r := f L
  (r.1, if r.2 then .RuntimeError else .Ok)

/-- luaD_pcall_safe (ldo.rs): run protected; on a non-Ok outcome store the
status into L.status; return L.status.  (The source's old_status variable is
computed and never used.)  No stack restoration happens here. -/
def luaD_pcall_safe (f : ProtBody) (L : lua_State) : lua_State × LuaStatus :=
  let r := luaD_rawrunprotected f L
  let L2 := if r.2 ≠ LuaStatus.Ok then { r.1 with status := r.2 } else r.1
  (L2, L2.status)

/-- The error value luaD_seterrorobj builds for each status (ldo.rs). -/
def errorMessageOf : LuaStatus → LV
  | .RuntimeError => .Str "Runtime error"
  | .MemoryError => .Str "Memory error"
  | .ErrorHandler => .Str "Error handler error"
  | _ => .Nil

/-- luaD_seterrorobj (ldo.rs): overwrite the slot at oldtop (when inside the
backing vector) with the error message for the status; the stack top is not
changed and nothing is pushed. -/
def luaD_seterrorobj (L : lua_State) (errcode : LuaStatus) (oldtop : Nat) :
    lua_State :=
  let errval : LV := errorMessageOf errcode
  if oldtop < L.stack.values.length then
    { L with stack := L.stack.set oldtop errval }
  else L

/-- luaD_savestack (ldo.rs): the saved (pre-call) stack top. -/
def luaD_savestack (L : lua_State) : Nat := L.stack.top

end Ldo

/-! Coroutine library (src/src/lcorolib.rs).  The stack primitives it calls
(lapi.rs) are declared but unimplemented in the repository; they are
modelled from the spec where noted. -/

namespace Coro

/-- Raw coroutine status codes (lapi.rs). -/
def LUA_OK : Nat := 0

/-- LUA_YIELD (lapi.rs). -/
def LUA_YIELD : Nat := 1

/-- LUA_ERRRUN (lapi.rs). -/
def LUA_ERRRUN : Nat := 2

/-- Modelled from the spec: a thread — the per-thread value stack (§6 host
boundary) and the raw status code returned by the unimplemented lua_status
of lapi.rs ("Return LUA_OK, LUA_YIELD, or error code"): a thread suspended
in yield carries LUA_YIELD, a thread dead from an uncaught error carries the
error code, and every other thread (unstarted, running, normal, or dead by
normal return) carries LUA_OK — the encoding luaB_costatus in lcorolib.rs
reads back. -/
structure Thread where
  stack : List LuaValue
  status : Nat
  deriving DecidableEq, Repr

/-- Modelled from the spec: lua_gettop — the number of values on the
thread's stack (unimplemented in lapi.rs). -/
def lua_gettop (t : Thread) : Nat := t.stack.length

/-- Modelled from the spec: pushing one value (lua_pushboolean /
lua_pushstring, unimplemented in lapi.rs). -/
def push (t : Thread) (v : LuaValue) : Thread :=
  { t with stack := t.stack ++ [v] }

/-- Modelled from the spec: lua_xmove — move the top n values from one
thread's stack to another, preserving their order (unimplemented in
lapi.rs; spec §4.3: bulk-move of the argument/result value range). -/
def xmove (src dst : Thread) (n : Nat) : Thread × Thread :=
  let keep := src.stack.length - n
  ({ src with stack := src.stack.take keep },
   { dst with stack := dst.stack ++ src.stack.drop keep })

/-- The result luaB_coresume produces when it rejects a thread: false plus
the message pushed on the caller, two return values, coroutine untouched. -/
def coresumeRejected (L co : Thread) : Thread × Thread × Nat :=
  (push (push L (.Bool false)) (.Str "cannot resume dead coroutine"), co, 2)

/-- luaB_coresume (lcorolib.rs) for an argument that is a thread (the
null-thread branch concerns a non-thread argument and is not taken here).
The unimplemented lua_resume of lapi.rs is a parameter returning the
coroutine's final state and status; everything else follows the source:
reject exactly when the raw status is neither LUA_YIELD nor LUA_OK,
otherwise move the caller's arguments over, resume, and move the results
(after pushing true) or the error (after pushing false) back.  Returns the
caller, the coroutine, and the number of return values. -/
def luaB_coresume (resumeImpl : Thread → Nat → Thread × Nat)
    (L co : Thread) : Thread × Thread × Nat :=
  if ¬(co.status = LUA_YIELD) ∧ ¬(co.status = LUA_OK) then
    coresumeRejected L co
  else
    let nargs := lua_gettop L - 1
    let m1 := xmove L co nargs
    let r := resumeImpl m1.2 nargs
    if r.2 = LUA_OK ∨ r.2 = LUA_YIELD then
      let L2 := push m1.1 (.Bool true)
      let nresults := lua_gettop r.1
      let m2 := xmove r.1 L2 nresults
      (m2.2, m2.1, nresults + 1)
    else
      let L2 := push m1.1 (.Bool false)
      if 0 < lua_gettop r.1 then
        let m2 := xmove r.1 L2 1
        (m2.2, m2.1, 2)
      else
        (push L2 (.Str "coroutine error"), r.1, 2)

/-- luaB_costatus (lcorolib.rs): the status string of a coroutine; whether
co is the currently running thread is passed as a flag (the source compares
thread identities via lua_pushthread). -/
def luaB_costatus (co : Thread) (isRunningThread : Bool) : String :=
  if isRunningThread then "running"
  else if co.status = LUA_YIELD then "suspended"
  else if co.status = LUA_OK then
    (if lua_gettop co = 0 then "dead" else "normal")
  else "dead"

/-- A stand-in behavior for the unimplemented lua_resume: the coroutine
returns immediately with no results (used as the concrete instance in
counterexamples; theorems about the rejection path hold for every
behavior). -/
def resumeReturnsOk : Thread → Nat → Thread × Nat :=
  fun co _ => (co, LUA_OK)

/-- A coroutine that has returned: raw status LUA_OK with an empty stack —
the configuration luaB_costatus classifies as dead. -/
def deadCo : Thread := ⟨[], LUA_OK⟩

/-- A resumer whose stack holds the coroutine argument slot and one
argument value. -/
def resumerL : Thread := ⟨[.Nil, .Int 7], LUA_OK⟩

/-- A coroutine dead from an uncaught error (raw status LUA_ERRRUN). -/
def errDeadCo : Thread := ⟨[], LUA_ERRRUN⟩

end Coro

/-! Concrete inputs and specification-side definitions used by the claim
theorems. -/

/-- Modelled from the spec (§3): the array size the specification's rehash
rule picks — the largest power-of-two boundary n (up to MAX_ARRAY_SIZE) such
that more than half of the positions in [1, n] hold a present integer key;
0 when no boundary qualifies. -/
def specArraySize (keys : List Int) : Nat :=
  (List.range 25).foldl
    (fun acc k =>
      let n : Nat := 2 ^ k
      let used := (keys.filter (fun i => decide (0 < i ∧ i ≤ (n : Int)))).length
      if n < 2 * used then n else acc) 0

/-- The border law the specification states for length: the returned n has
slot n non-nil (when n > 0) and slot n + 1 nil. -/
def BorderLaw (t : Table) : Prop :=
  (0 < t.len → t.get (.Int ((t.len : Nat) : Int)) ≠ none) ∧
  t.get (.Int ((t.len + 1 : Nat) : Int)) = none

/-- Operations filling array slots 1..k with the integer 0. -/
def fillOps : Nat → List TableOp
  | 0 => []
  | k + 1 => fillOps k ++ [.set (.Int ((k + 1 : Nat) : Int)) (.Int 0)]

/-- Border-law counterexample operations: fill slots 1..MAX_ARRAY_SIZE, then
set key MAX_ARRAY_SIZE + 1 (which lands in the hash part). -/
def borderOps : List TableOp :=
  fillOps MAX_ARRAY_SIZE ++
    [.set (.Int ((MAX_ARRAY_SIZE + 1 : Nat) : Int)) (.Int 0)]

/-- The border-law counterexample table. -/
def borderTable : Table := applyOps Table.new borderOps

/-- Operations building the specification's example: a table from 1,2,3 with
index 2 removed. -/
def holeOps : List TableOp :=
  [.set (.Int 1) (.Int 1), .set (.Int 2) (.Int 2), .set (.Int 3) (.Int 3),
   .remove (.Int 2)]

/-- The table built from 1,2,3 with index 2 removed. -/
def holeTable : Table := applyOps Table.new holeOps

/-- The iteration example of the repository's own test_table_next: array
keys 1 and 2 plus the string key a. -/
def nextBugTable : Table :=
  ((Table.new.set (.Int 1) (.Int 10)).set (.Int 2) (.Int 20)).set
    (.Str "a") (.Int 30)

/-- The rehash example of the repository's own test_table_rehash: capacity
2, keys 1, 2 and 100. -/
def rehashBugTable : Table :=
  (((Table.with_capacity 2).set (.Int 1) (.Int 10)).set
    (.Int 2) (.Int 20)).set (.Int 100) (.Int 99)

/-- A protected body that pushes two values and then panics. -/
def pushTwoThenPanic : Ldo.ProtBody :=
  fun L => ({ L with stack := (L.stack.push .Nil).push .Nil }, true)

/-- A black-marked GC object standing for a blackened table holder. -/
def blackHolder : GCObject := ⟨BLACKBIT, .Table⟩

/-- A freshly allocated (white) GC object. -/
def freshWhite : GCObject := ⟨WHITE0BIT, .Table⟩

/-- The placement property of §3: an in-range positive integer key is served
by the array part and is absent from the hash part; every key other than an
in-range positive integer is served by the hash part. -/
def Placement (t : Table) : Prop :=
  (∀ i : Int, 0 < i → i.toNat ≤ t.arr.length →
    hlookup t.hash (TableKey.Int i) = none ∧
    t.get (.Int i) = t.arr.getD (i.toNat - 1) none) ∧
  (∀ k : LuaValue, (∀ i : Int, 0 < i → i.toNat ≤ t.arr.length → k ≠ .Int i) →
    t.get k = hlookup t.hash (TableKey.from_lua k))

/-! Generic list lemmas used throughout the development. -/

theorem getD_set_lt {α} (l : List α) (i : Nat) (v d : α) (h : i < l.length) :
    (l.set i v).getD i d = v := by
  induction l generalizing i with
  | nil => simp at h
  | cons a rest ih =>
    cases i with
    | zero => rfl
    | succ j => simpa using ih j (by simpa using h)

theorem getD_set_ne {α} (l : List α) (i j : Nat) (v d : α) (h : i ≠ j) :
    (l.set i v).getD j d = l.getD j d := by
  induction l generalizing i j with
  | nil => simp
  | cons a rest ih =>
    cases i with
    | zero =>
      cases j with
      | zero => exact absurd rfl h
      | succ j' => simp
    | succ i' =>
      cases j with
      | zero => simp
      | succ j' => simpa using ih i' j' (fun hh => h (by omega))

theorem getD_append_lt {α} (l₁ l₂ : List α) (i : Nat) (d : α)
    (h : i < l₁.length) : (l₁ ++ l₂).getD i d = l₁.getD i d := by
  induction l₁ generalizing i with
  | nil => simp at h
  | cons a rest ih =>
    cases i with
    | zero => rfl
    | succ j => simpa using ih j (by simpa using h)

theorem getD_append_ge {α} (l₁ l₂ : List α) (i : Nat) (d : α)
    (h : l₁.length ≤ i) : (l₁ ++ l₂).getD i d = l₂.getD (i - l₁.length) d := by
  induction l₁ generalizing i with
  | nil => simp
  | cons a rest ih =>
    cases i with
    | zero => simp at h
    | succ j =>
      have := ih j (by simpa using h)
      simpa [Nat.succ_sub_succ] using this

theorem getD_replicate_lt {α} (n i : Nat) (a d : α) (h : i < n) :
    (List.replicate n a).getD i d = a := by
  induction n generalizing i with
  | zero => omega
  | succ m ih =>
    cases i with
    | zero => rfl
    | succ j =>
      rw [List.replicate_succ]
      simpa using ih j (by omega)

theorem getD_of_len_le {α} (l : List α) (i : Nat) (d : α) (h : l.length ≤ i) :
    l.getD i d = d := by
  induction l generalizing i with
  | nil => rfl
  | cons a rest ih =>
    cases i with
    | zero => simp at h
    | succ j => simpa using ih j (by simpa using h)

/-! Lemmas about the association-list model of the hash part. -/

theorem oor_none_right {α : Type} (a : Option α) : oor a none = a := by
  cases a <;> rfl

theorem oor_assoc {α : Type} (a b c : Option α) :
    oor (oor a b) c = oor a (oor b c) := by
  cases a <;> rfl

theorem hlookup_append (l₁ l₂ : List (TableKey × LuaValue)) (k : TableKey) :
    hlookup (l₁ ++ l₂) k = oor (hlookup l₁ k) (hlookup l₂ k) := by
  induction l₁ with
  | nil => simp [hlookup, oor]
  | cons p rest ih =>
    obtain ⟨a, b⟩ := p
    by_cases hp : a = k <;> simp [hlookup, hp, oor, ih]

theorem hlookup_map_replace (l : List (TableKey × LuaValue)) (k : TableKey)
    (v : LuaValue) :
    hlookup (l.map (fun p => if p.1 = k then (k, v) else p)) k =
      if (hlookup l k).isSome then some v else none := by
  induction l with
  | nil => simp [hlookup]
  | cons p rest ih =>
    obtain ⟨a, b⟩ := p
    by_cases hp : a = k
    · subst hp
      rw [List.map_cons, if_pos rfl]
      simp [hlookup, ih]
    · rw [List.map_cons, if_neg hp]
      simp [hlookup, hp, ih]

theorem hlookup_map_replace_ne (l : List (TableKey × LuaValue))
    (k k' : TableKey) (v : LuaValue) (h : k' ≠ k) :
    hlookup (l.map (fun p => if p.1 = k then (k, v) else p)) k' =
      hlookup l k' := by
  induction l with
  | nil => rfl
  | cons p rest ih =>
    obtain ⟨a, b⟩ := p
    by_cases hp : a = k
    · subst hp
      rw [List.map_cons, if_pos rfl]
      simp [hlookup, Ne.symm h, ih]
    · rw [List.map_cons, if_neg hp]
      simp [hlookup, hp, ih]

theorem hlookup_hashInsert_self (l : List (TableKey × LuaValue))
    (k : TableKey) (v : LuaValue) : hlookup (hashInsert l k v) k = some v := by
  unfold hashInsert
  split
  · rw [hlookup_map_replace]
    simp [*]
  · rename_i hnone
    rw [hlookup_append]
    have : hlookup l k = none := by
      cases hval : hlookup l k
      · rfl
      · simp [hval] at hnone
    simp [this, oor, hlookup]

theorem hlookup_hashInsert_ne (l : List (TableKey × LuaValue))
    (k k' : TableKey) (v : LuaValue) (h : k' ≠ k) :
    hlookup (hashInsert l k v) k' = hlookup l k' := by
  unfold hashInsert
  split
  · exact hlookup_map_replace_ne l k k' v h
  · rw [hlookup_append]
    have : hlookup [(k, v)] k' = none := by simp [hlookup, Ne.symm h]
    rw [this, oor_none_right]

theorem hlookup_hashRemove (l : List (TableKey × LuaValue)) (k k' : TableKey) :
    hlookup (hashRemove l k) k' = if k' = k then none else hlookup l k' := by
  induction l with
  | nil => simp [hashRemove, hlookup]
  | cons p rest ih =>
    obtain ⟨a, b⟩ := p
    by_cases ha : a = k
    · subst ha
      have hstep : hashRemove ((a, b) :: rest) a = hashRemove rest a := by
        simp [hashRemove]
      rw [hstep, ih]
      by_cases h' : k' = a
      · simp [h']
      · simp [h', hlookup, Ne.symm h']
    · have hstep : hashRemove ((a, b) :: rest) k = (a, b) :: hashRemove rest k := by
        simp [hashRemove, ha]
      rw [hstep]
      by_cases h' : a = k'
      · subst h'
        simp [hlookup, ih, ha]
      · simp [hlookup, h', ih]

theorem hlookup_eq_none_iff (l : List (TableKey × LuaValue)) (k : TableKey) :
    hlookup l k = none ↔ ∀ p ∈ l, p.1 ≠ k := by
  induction l with
  | nil => simp [hlookup]
  | cons p rest ih =>
    obtain ⟨a, b⟩ := p
    by_cases hp : a = k <;> simp [hlookup, hp, ih]

theorem keysNodup_hashInsert (l : List (TableKey × LuaValue)) (k : TableKey)
    (v : LuaValue) (h : (l.map Prod.fst).Nodup) :
    ((hashInsert l k v).map Prod.fst).Nodup := by
  unfold hashInsert
  split
  · have heq : (l.map (fun p => if p.1 = k then (k, v) else p)).map Prod.fst =
        l.map Prod.fst := by
      rw [List.map_map]
      apply List.map_congr_left
      intro p _
      by_cases hp : p.1 = k <;> simp [hp]
    rw [heq]
    exact h
  · rename_i hnone
    have hlkn : hlookup l k = none := by
      cases hval : hlookup l k
      · rfl
      · simp [hval] at hnone
    have hk : ∀ p ∈ l, p.1 ≠ k := (hlookup_eq_none_iff l k).1 hlkn
    rw [List.map_append]
    rw [List.nodup_append]
    refine ⟨h, by simp, ?_⟩
    intro x hx
    simp only [List.mem_map] at hx
    obtain ⟨p, hp, rfl⟩ := hx
    simp only [List.map_cons, List.map_nil, List.mem_singleton]
    exact hk p hp

theorem keysNodup_hashRemove (l : List (TableKey × LuaValue)) (k : TableKey)
    (h : (l.map Prod.fst).Nodup) :
    ((hashRemove l k).map Prod.fst).Nodup := by
  exact h.sublist (List.Sublist.map Prod.fst (List.filter_sublist l))

/-! Key-conversion lemmas. -/

theorem from_to_lua (k : TableKey) : TableKey.from_lua (TableKey.to_lua k) = k := by
  cases k <;> rfl

theorem from_lua_inj (a b : LuaValue) (ha : isTableKey a = true)
    (hb : isTableKey b = true) (h : TableKey.from_lua a = TableKey.from_lua b) :
    a = b := by
  cases a <;> cases b <;> simp_all [isTableKey, TableKey.from_lua]

/-! Branch lemmas for Table::set and Table::get. -/

theorem set_int_arr (t : Table) (i : Int) (v : LuaValue) (hi : 0 < i)
    (h : i.toNat - 1 < t.arr.length) :
    t.set (.Int i) v = { t with arr := t.arr.set (i.toNat - 1) (some v) } := by
  simp [Table.set, hi, h]

theorem set_int_grow (t : Table) (i : Int) (v : LuaValue) (hi : 0 < i)
    (h1 : ¬i.toNat - 1 < t.arr.length) (h2 : i.toNat - 1 < MAX_ARRAY_SIZE) :
    t.set (.Int i) v =
      { t with arr :=
          ((t.arr ++ List.replicate (i.toNat - 1 + 1 - t.arr.length) none).set
            (i.toNat - 1) (some v)) } := by
  simp [Table.set, hi, h1, h2]

theorem set_int_hash (t : Table) (i : Int) (v : LuaValue) (hi : 0 < i)
    (h1 : ¬i.toNat - 1 < t.arr.length) (h2 : ¬i.toNat - 1 < MAX_ARRAY_SIZE) :
    t.set (.Int i) v =
      { t with hash := hashInsert t.hash (.Int i) v } := by
  simp [Table.set, hi, h1, h2, TableKey.from_lua]

theorem set_int_nonpos (t : Table) (i : Int) (v : LuaValue) (hi : ¬0 < i) :
    t.set (.Int i) v =
      { t with hash := hashInsert t.hash (.Int i) v } := by
  simp [Table.set, hi, TableKey.from_lua]

theorem set_other (t : Table) (k v : LuaValue) (hk : ∀ i : Int, k ≠ .Int i) :
    t.set k v =
      { t with hash := hashInsert t.hash (TableKey.from_lua k) v } := by
  cases k
  case Int i => exact absurd rfl (hk i)
  all_goals rfl

theorem get_int_arr (t : Table) (i : Int) (hi : 0 < i)
    (h : i.toNat ≤ t.arr.length) :
    t.get (.Int i) = t.arr.getD (i.toNat - 1) none := by
  simp [Table.get, hi, h]

theorem get_int_hash (t : Table) (i : Int)
    (h : ¬(0 < i ∧ i.toNat ≤ t.arr.length)) :
    t.get (.Int i) = hlookup t.hash (.Int i) := by
  simp only [Table.get, if_neg h, TableKey.from_lua]

theorem get_other (t : Table) (k : LuaValue) (hk : ∀ i : Int, k ≠ .Int i) :
    t.get k = hlookup t.hash (TableKey.from_lua k) := by
  cases k
  case Int i => exact absurd rfl (hk i)
  all_goals rfl

theorem set_arr_int_arr (t : Table) (i : Int) (v : LuaValue) (hi : 0 < i)
    (h : i.toNat - 1 < t.arr.length) :
    (t.set (.Int i) v).arr = t.arr.set (i.toNat - 1) (some v) := by
  rw [set_int_arr t i v hi h]

theorem set_hash_int_arr (t : Table) (i : Int) (v : LuaValue) (hi : 0 < i)
    (h : i.toNat - 1 < t.arr.length) : (t.set (.Int i) v).hash = t.hash := by
  rw [set_int_arr t i v hi h]

theorem set_arr_int_grow (t : Table) (i : Int) (v : LuaValue) (hi : 0 < i)
    (h1 : ¬i.toNat - 1 < t.arr.length) (h2 : i.toNat - 1 < MAX_ARRAY_SIZE) :
    (t.set (.Int i) v).arr =
      ((t.arr ++ List.replicate (i.toNat - 1 + 1 - t.arr.length) none).set
        (i.toNat - 1) (some v)) := by
  rw [set_int_grow t i v hi h1 h2]

theorem set_arr_len_grow (t : Table) (i : Int) (v : LuaValue) (hi : 0 < i)
    (h1 : ¬i.toNat - 1 < t.arr.length) (h2 : i.toNat - 1 < MAX_ARRAY_SIZE) :
    (t.set (.Int i) v).arr.length = i.toNat := by
  rw [set_arr_int_grow t i v hi h1 h2]
  simp only [List.length_set, List.length_append, List.length_replicate]
  omega

theorem set_hash_int_grow (t : Table) (i : Int) (v : LuaValue) (hi : 0 < i)
    (h1 : ¬i.toNat - 1 < t.arr.length) (h2 : i.toNat - 1 < MAX_ARRAY_SIZE) :
    (t.set (.Int i) v).hash = t.hash := by
  rw [set_int_grow t i v hi h1 h2]

theorem set_arr_int_hash (t : Table) (i : Int) (v : LuaValue) (hi : 0 < i)
    (h1 : ¬i.toNat - 1 < t.arr.length) (h2 : ¬i.toNat - 1 < MAX_ARRAY_SIZE) :
    (t.set (.Int i) v).arr = t.arr := by
  rw [set_int_hash t i v hi h1 h2]

theorem set_hash_int_hash (t : Table) (i : Int) (v : LuaValue) (hi : 0 < i)
    (h1 : ¬i.toNat - 1 < t.arr.length) (h2 : ¬i.toNat - 1 < MAX_ARRAY_SIZE) :
    (t.set (.Int i) v).hash = hashInsert t.hash (.Int i) v := by
  rw [set_int_hash t i v hi h1 h2]

theorem set_arr_int_nonpos (t : Table) (i : Int) (v : LuaValue) (hi : ¬0 < i) :
    (t.set (.Int i) v).arr = t.arr := by
  rw [set_int_nonpos t i v hi]

theorem set_hash_int_nonpos (t : Table) (i : Int) (v : LuaValue) (hi : ¬0 < i) :
    (t.set (.Int i) v).hash = hashInsert t.hash (.Int i) v := by
  rw [set_int_nonpos t i v hi]

theorem set_arr_other (t : Table) (k v : LuaValue) (hk : ∀ i : Int, k ≠ .Int i) :
    (t.set k v).arr = t.arr := by
  rw [set_other t k v hk]

theorem set_hash_other (t : Table) (k v : LuaValue)
    (hk : ∀ i : Int, k ≠ .Int i) :
    (t.set k v).hash = hashInsert t.hash (TableKey.from_lua k) v := by
  rw [set_other t k v hk]

/-- Reading back the key just set always yields the value just stored, for
every key (also a non-key value like Nil, via the fallback conversion). -/
theorem get_set_self (t : Table) (k v : LuaValue) : (t.set k v).get k = some v := by
  cases k with
  | Int i =>
    by_cases hi : 0 < i
    · have hpos : 0 < i.toNat := by omega
      by_cases h1 : i.toNat - 1 < t.arr.length
      · rw [set_int_arr t i v hi h1]
        rw [get_int_arr _ i hi (by simpa [List.length_set] using by omega)]
        exact getD_set_lt _ _ _ _ (by simpa [List.length_set] using h1)
      · by_cases h2 : i.toNat - 1 < MAX_ARRAY_SIZE
        · rw [set_int_grow t i v hi h1 h2]
          have hlen :
              ((t.arr ++
                List.replicate (i.toNat - 1 + 1 - t.arr.length) none).set
                (i.toNat - 1) (some v)).length = i.toNat := by
            simp [List.length_set, List.length_append, List.length_replicate]
            omega
          rw [get_int_arr _ i hi (by rw [hlen])]
          exact getD_set_lt _ _ _ _ (by simp [List.length_append]; omega)
        · rw [set_int_hash t i v hi h1 h2]
          rw [get_int_hash _ i (by simp only [not_and]; intro; omega)]
          exact hlookup_hashInsert_self _ _ _
    · rw [set_int_nonpos t i v hi]
      rw [get_int_hash _ i (by intro hcon; exact hi hcon.1)]
      exact hlookup_hashInsert_self _ _ _
  | Nil => exact hlookup_hashInsert_self t.hash (TableKey.from_lua .Nil) v
  | Bool b => exact hlookup_hashInsert_self t.hash (TableKey.from_lua (.Bool b)) v
  | Float f => exact hlookup_hashInsert_self t.hash (TableKey.from_lua (.Float f)) v
  | Str s => exact hlookup_hashInsert_self t.hash (TableKey.from_lua (.Str s)) v
  | Pointer p =>
      exact hlookup_hashInsert_self t.hash (TableKey.from_lua (.Pointer p)) v
  | Object o =>
      exact hlookup_hashInsert_self t.hash (TableKey.from_lua (.Object o)) v

/-- A set never changes the hash binding of a different table key. -/
theorem set_hash_lookup_ne (t : Table) (k v : LuaValue) (q : TableKey)
    (hq : q ≠ TableKey.from_lua k) :
    hlookup (t.set k v).hash q = hlookup t.hash q := by
  cases k with
  | Int i =>
    by_cases hi : 0 < i
    · by_cases h1 : i.toNat - 1 < t.arr.length
      · rw [set_hash_int_arr t i v hi h1]
      · by_cases h2 : i.toNat - 1 < MAX_ARRAY_SIZE
        · rw [set_hash_int_grow t i v hi h1 h2]
        · rw [set_hash_int_hash t i v hi h1 h2]
          exact hlookup_hashInsert_ne _ _ _ _ hq
    · rw [set_hash_int_nonpos t i v hi]
      exact hlookup_hashInsert_ne _ _ _ _ hq
  | Nil =>
    rw [set_hash_other t _ v (by intro n; simp)]
    exact hlookup_hashInsert_ne _ _ _ _ hq
  | Bool b =>
    rw [set_hash_other t _ v (by intro n; simp)]
    exact hlookup_hashInsert_ne _ _ _ _ hq
  | Float f =>
    rw [set_hash_other t _ v (by intro n; simp)]
    exact hlookup_hashInsert_ne _ _ _ _ hq
  | Str s =>
    rw [set_hash_other t _ v (by intro n; simp)]
    exact hlookup_hashInsert_ne _ _ _ _ hq
  | Pointer p =>
    rw [set_hash_other t _ v (by intro n; simp)]
    exact hlookup_hashInsert_ne _ _ _ _ hq
  | Object o =>
    rw [set_hash_other t _ v (by intro n; simp)]
    exact hlookup_hashInsert_ne _ _ _ _ hq

/-- An integer read agrees across two tables whose array length, relevant
array slot and relevant hash binding agree. -/
theorem get_int_eq_of_parts (t' t : Table) (j : Int)
    (hlen : t'.arr.length = t.arr.length)
    (hget : 0 < j →
      t'.arr.getD (j.toNat - 1) none = t.arr.getD (j.toNat - 1) none)
    (hhl : hlookup t'.hash (.Int j) = hlookup t.hash (.Int j)) :
    t'.get (.Int j) = t.get (.Int j) := by
  by_cases hj : 0 < j ∧ j.toNat ≤ t.arr.length
  · rw [get_int_arr t' j hj.1 (by rw [hlen]; exact hj.2),
        get_int_arr t j hj.1 hj.2, hget hj.1]
  · rw [get_int_hash t' j (by rw [hlen]; exact hj), get_int_hash t j hj, hhl]

/-- Setting one genuine key leaves every other genuine key's read unchanged.
The invariant is needed in the growth branch: without it the enlarged array
could shadow a hash binding. -/
theorem get_set_ne (t : Table) (k k' v : LuaValue) (hwf : WF t)
    (hk : isTableKey k = true) (hk' : isTableKey k' = true) (hne : k' ≠ k) :
    (t.set k v).get k' = t.get k' := by
  have hflne : TableKey.from_lua k' ≠ TableKey.from_lua k := fun h =>
    hne (from_lua_inj k' k hk' hk h)
  cases k' with
  | Nil => simp [isTableKey] at hk'
  | Bool b' =>
    rw [get_other _ _ (by intro n; simp), get_other t _ (by intro n; simp)]
    exact set_hash_lookup_ne t k v _ hflne
  | Float f' =>
    rw [get_other _ _ (by intro n; simp), get_other t _ (by intro n; simp)]
    exact set_hash_lookup_ne t k v _ hflne
  | Str s' =>
    rw [get_other _ _ (by intro n; simp), get_other t _ (by intro n; simp)]
    exact set_hash_lookup_ne t k v _ hflne
  | Pointer p' =>
    rw [get_other _ _ (by intro n; simp), get_other t _ (by intro n; simp)]
    exact set_hash_lookup_ne t k v _ hflne
  | Object o' =>
    rw [get_other _ _ (by intro n; simp), get_other t _ (by intro n; simp)]
    exact set_hash_lookup_ne t k v _ hflne
  | Int j =>
    cases k with
    | Nil => simp [isTableKey] at hk
    | Bool b =>
      exact get_int_eq_of_parts _ t j
        (by rw [set_arr_other t _ v (by intro n; simp)])
        (fun _ => by rw [set_arr_other t _ v (by intro n; simp)])
        (set_hash_lookup_ne t _ v _ hflne)
    | Float f =>
      exact get_int_eq_of_parts _ t j
        (by rw [set_arr_other t _ v (by intro n; simp)])
        (fun _ => by rw [set_arr_other t _ v (by intro n; simp)])
        (set_hash_lookup_ne t _ v _ hflne)
    | Str s =>
      exact get_int_eq_of_parts _ t j
        (by rw [set_arr_other t _ v (by intro n; simp)])
        (fun _ => by rw [set_arr_other t _ v (by intro n; simp)])
        (set_hash_lookup_ne t _ v _ hflne)
    | Pointer p =>
      exact get_int_eq_of_parts _ t j
        (by rw [set_arr_other t _ v (by intro n; simp)])
        (fun _ => by rw [set_arr_other t _ v (by intro n; simp)])
        (set_hash_lookup_ne t _ v _ hflne)
    | Object o =>
      exact get_int_eq_of_parts _ t j
        (by rw [set_arr_other t _ v (by intro n; simp)])
        (fun _ => by rw [set_arr_other t _ v (by intro n; simp)])
        (set_hash_lookup_ne t _ v _ hflne)
    | Int i =>
      have hji : j ≠ i := fun hh => hne (by rw [hh])
      by_cases hi : 0 < i
      · by_cases h1 : i.toNat - 1 < t.arr.length
        · have harr := set_arr_int_arr t i v hi h1
          have hlen : (t.set (.Int i) v).arr.length = t.arr.length := by
            rw [harr, List.length_set]
          exact get_int_eq_of_parts _ t j hlen
            (fun hj0 => by rw [harr]; exact getD_set_ne _ _ _ _ _ (by omega))
            (by rw [set_hash_int_arr t i v hi h1])
        · by_cases h2 : i.toNat - 1 < MAX_ARRAY_SIZE
          · have harr := set_arr_int_grow t i v hi h1 h2
            have hlen := set_arr_len_grow t i v hi h1 h2
            have hhash := set_hash_int_grow t i v hi h1 h2
            by_cases hj0 : 0 < j
            · by_cases hjle : j.toNat ≤ t.arr.length
              · have hb : j.toNat ≤ (t.set (.Int i) v).arr.length := by
                  rw [hlen]; omega
                rw [get_int_arr (t.set (.Int i) v) j hj0 hb,
                    get_int_arr t j hj0 hjle, harr,
                    getD_set_ne _ _ _ _ _ (by omega)]
                exact getD_append_lt _ _ _ _ (by omega)
              · by_cases hjle2 : j.toNat ≤ i.toNat
                · have hnone : hlookup t.hash (TableKey.Int j) = none := by
                    cases hval : hlookup t.hash (TableKey.Int j) with
                    | none => rfl
                    | some w =>
                      have hmax := (hwf.2 j hj0 (by simp [hval])).2
                      omega
                  have hb : j.toNat ≤ (t.set (.Int i) v).arr.length := by
                    rw [hlen]; exact hjle2
                  rw [get_int_arr (t.set (.Int i) v) j hj0 hb,
                      get_int_hash t j (by intro hc; exact hjle hc.2), hnone,
                      harr, getD_set_ne _ _ _ _ _ (by omega),
                      getD_append_ge _ _ _ _ (by omega)]
                  exact getD_replicate_lt _ _ _ _ (by omega)
                · have hb : ¬(0 < j ∧ j.toNat ≤ (t.set (.Int i) v).arr.length) := by
                    rw [hlen]; intro hc; exact hjle2 hc.2
                  rw [get_int_hash (t.set (.Int i) v) j hb,
                      get_int_hash t j (by intro hc; exact hjle hc.2), hhash]
            · rw [get_int_hash (t.set (.Int i) v) j (by intro hc; exact hj0 hc.1),
                  get_int_hash t j (by intro hc; exact hj0 hc.1), hhash]
          · exact get_int_eq_of_parts _ t j
              (by rw [set_arr_int_hash t i v hi h1 h2])
              (fun _ => by rw [set_arr_int_hash t i v hi h1 h2])
              (by rw [set_hash_int_hash t i v hi h1 h2]
                  exact hlookup_hashInsert_ne _ _ _ _ hflne)
      · exact get_int_eq_of_parts _ t j
          (by rw [set_arr_int_nonpos t i v hi])
          (fun _ => by rw [set_arr_int_nonpos t i v hi])
          (by rw [set_hash_int_nonpos t i v hi]
              exact hlookup_hashInsert_ne _ _ _ _ hflne)

/-! The structural invariant and its preservation. -/

theorem WF_new : WF Table.new := by
  constructor
  · simp [Table.new]
  · intro j hj hsome
    simp [Table.new, hlookup] at hsome

theorem WF_of_parts (t t' : Table) (hwf : WF t)
    (hnodup : (t'.hash.map Prod.fst).Nodup)
    (harr : t'.arr.length = t.arr.length)
    (hhash : ∀ j : Int, 0 < j → (hlookup t'.hash (.Int j)).isSome →
      (hlookup t.hash (.Int j)).isSome) :
    WF t' := by
  refine ⟨hnodup, ?_⟩
  intro j hj hsome
  rw [harr]
  exact hwf.2 j hj (hhash j hj hsome)

theorem WF_set (t : Table) (k v : LuaValue) (hwf : WF t) : WF (t.set k v) := by
  obtain ⟨hnodup, hint⟩ := hwf
  cases k with
  | Int i =>
    by_cases hi : 0 < i
    · by_cases h1 : i.toNat - 1 < t.arr.length
      · refine WF_of_parts t _ ⟨hnodup, hint⟩ ?_ ?_ ?_
        · rw [set_hash_int_arr t i v hi h1]
          exact hnodup
        · rw [set_arr_int_arr t i v hi h1, List.length_set]
        · intro j hj
          rw [set_hash_int_arr t i v hi h1]
          exact id
      · by_cases h2 : i.toNat - 1 < MAX_ARRAY_SIZE
        · constructor
          · rw [set_hash_int_grow t i v hi h1 h2]
            exact hnodup
          · intro j hj hsome
            rw [set_hash_int_grow t i v hi h1 h2] at hsome
            have hold := hint j hj hsome
            rw [set_arr_len_grow t i v hi h1 h2]
            omega
        · constructor
          · rw [set_hash_int_hash t i v hi h1 h2]
            exact keysNodup_hashInsert _ _ _ hnodup
          · intro j hj hsome
            rw [set_hash_int_hash t i v hi h1 h2] at hsome
            rw [set_arr_int_hash t i v hi h1 h2]
            by_cases hji : (TableKey.Int j) = (TableKey.Int i)
            · have hje : j = i := by simpa using hji
              subst hje
              omega
            · rw [hlookup_hashInsert_ne _ _ _ _ hji] at hsome
              exact hint j hj hsome
    · constructor
      · rw [set_hash_int_nonpos t i v hi]
        exact keysNodup_hashInsert _ _ _ hnodup
      · intro j hj hsome
        rw [set_hash_int_nonpos t i v hi] at hsome
        rw [set_arr_int_nonpos t i v hi]
        have hji : (TableKey.Int j) ≠ (TableKey.Int i) := by
          simp only [ne_eq, TableKey.Int.injEq]
          omega
        rw [hlookup_hashInsert_ne _ _ _ _ hji] at hsome
        exact hint j hj hsome
  | Nil =>
    refine WF_of_parts t _ ⟨hnodup, hint⟩ ?_ ?_ ?_
    · rw [set_hash_other t _ v (by intro n; simp)]
      exact keysNodup_hashInsert _ _ _ hnodup
    · rw [set_arr_other t _ v (by intro n; simp)]
    · intro j hj
      rw [set_hash_other t _ v (by intro n; simp),
        hlookup_hashInsert_ne _ _ _ _ (by simp [TableKey.from_lua])]
      exact id
  | Bool b =>
    refine WF_of_parts t _ ⟨hnodup, hint⟩ ?_ ?_ ?_
    · rw [set_hash_other t _ v (by intro n; simp)]
      exact keysNodup_hashInsert _ _ _ hnodup
    · rw [set_arr_other t _ v (by intro n; simp)]
    · intro j hj
      rw [set_hash_other t _ v (by intro n; simp),
        hlookup_hashInsert_ne _ _ _ _ (by simp [TableKey.from_lua])]
      exact id
  | Float f =>
    refine WF_of_parts t _ ⟨hnodup, hint⟩ ?_ ?_ ?_
    · rw [set_hash_other t _ v (by intro n; simp)]
      exact keysNodup_hashInsert _ _ _ hnodup
    · rw [set_arr_other t _ v (by intro n; simp)]
    · intro j hj
      rw [set_hash_other t _ v (by intro n; simp),
        hlookup_hashInsert_ne _ _ _ _ (by simp [TableKey.from_lua])]
      exact id
  | Str s =>
    refine WF_of_parts t _ ⟨hnodup, hint⟩ ?_ ?_ ?_
    · rw [set_hash_other t _ v (by intro n; simp)]
      exact keysNodup_hashInsert _ _ _ hnodup
    · rw [set_arr_other t _ v (by intro n; simp)]
    · intro j hj
      rw [set_hash_other t _ v (by intro n; simp),
        hlookup_hashInsert_ne _ _ _ _ (by simp [TableKey.from_lua])]
      exact id
  | Pointer p =>
    refine WF_of_parts t _ ⟨hnodup, hint⟩ ?_ ?_ ?_
    · rw [set_hash_other t _ v (by intro n; simp)]
      exact keysNodup_hashInsert _ _ _ hnodup
    · rw [set_arr_other t _ v (by intro n; simp)]
    · intro j hj
      rw [set_hash_other t _ v (by intro n; simp),
        hlookup_hashInsert_ne _ _ _ _ (by simp [TableKey.from_lua])]
      exact id
  | Object o =>
    refine WF_of_parts t _ ⟨hnodup, hint⟩ ?_ ?_ ?_
    · rw [set_hash_other t _ v (by intro n; simp)]
      exact keysNodup_hashInsert _ _ _ hnodup
    · rw [set_arr_other t _ v (by intro n; simp)]
    · intro j hj
      rw [set_hash_other t _ v (by intro n; simp),
        hlookup_hashInsert_ne _ _ _ _ (by simp [TableKey.from_lua])]
      exact id

theorem remove_int_arr (t : Table) (i : Int)
    (h : 0 < i ∧ i.toNat ≤ t.arr.length) :
    t.remove (.Int i) = { t with arr := t.arr.set (i.toNat - 1) none } := by
  simp [Table.remove, h]

theorem remove_int_hash (t : Table) (i : Int)
    (h : ¬(0 < i ∧ i.toNat ≤ t.arr.length)) :
    t.remove (.Int i) = { t with hash := hashRemove t.hash (.Int i) } := by
  simp only [Table.remove, TableKey.from_lua]
  rw [if_neg h]

theorem remove_other (t : Table) (k : LuaValue) (hk : ∀ i : Int, k ≠ .Int i) :
    t.remove k =
      { t with hash := hashRemove t.hash (TableKey.from_lua k) } := by
  cases k
  case Int i => exact absurd rfl (hk i)
  all_goals rfl

theorem WF_remove (t : Table) (k : LuaValue) (hwf : WF t) : WF (t.remove k) := by
  have hhr : ∀ q, ((hashRemove t.hash q).map Prod.fst).Nodup :=
    fun q => keysNodup_hashRemove t.hash q hwf.1
  have hlr : ∀ q (j : Int), (hlookup (hashRemove t.hash q) (.Int j)).isSome →
      (hlookup t.hash (.Int j)).isSome := by
    intro q j hsome
    rw [hlookup_hashRemove] at hsome
    by_cases hc : (TableKey.Int j) = q
    · simp [hc] at hsome
    · rwa [if_neg hc] at hsome
  cases k with
  | Int i =>
    by_cases h : 0 < i ∧ i.toNat ≤ t.arr.length
    · refine WF_of_parts t _ hwf ?_ ?_ ?_
      · rw [remove_int_arr t i h]
        exact hwf.1
      · rw [remove_int_arr t i h]
        exact List.length_set t.arr _ _
      · intro j hj
        rw [remove_int_arr t i h]
        exact id
    · refine WF_of_parts t _ hwf ?_ ?_ ?_
      · rw [remove_int_hash t i h]
        exact hhr _
      · rw [remove_int_hash t i h]
      · intro j hj
        rw [remove_int_hash t i h]
        exact hlr _ j
  | Nil =>
    refine WF_of_parts t _ hwf ?_ ?_ ?_
    · rw [remove_other t _ (by intro n; simp)]
      exact hhr _
    · rw [remove_other t _ (by intro n; simp)]
    · intro j hj
      rw [remove_other t _ (by intro n; simp)]
      exact hlr _ j
  | Bool b =>
    refine WF_of_parts t _ hwf ?_ ?_ ?_
    · rw [remove_other t _ (by intro n; simp)]
      exact hhr _
    · rw [remove_other t _ (by intro n; simp)]
    · intro j hj
      rw [remove_other t _ (by intro n; simp)]
      exact hlr _ j
  | Float f =>
    refine WF_of_parts t _ hwf ?_ ?_ ?_
    · rw [remove_other t _ (by intro n; simp)]
      exact hhr _
    · rw [remove_other t _ (by intro n; simp)]
    · intro j hj
      rw [remove_other t _ (by intro n; simp)]
      exact hlr _ j
  | Str s =>
    refine WF_of_parts t _ hwf ?_ ?_ ?_
    · rw [remove_other t _ (by intro n; simp)]
      exact hhr _
    · rw [remove_other t _ (by intro n; simp)]
    · intro j hj
      rw [remove_other t _ (by intro n; simp)]
      exact hlr _ j
  | Pointer p =>
    refine WF_of_parts t _ hwf ?_ ?_ ?_
    · rw [remove_other t _ (by intro n; simp)]
      exact hhr _
    · rw [remove_other t _ (by intro n; simp)]
    · intro j hj
      rw [remove_other t _ (by intro n; simp)]
      exact hlr _ j
  | Object o =>
    refine WF_of_parts t _ hwf ?_ ?_ ?_
    · rw [remove_other t _ (by intro n; simp)]
      exact hhr _
    · rw [remove_other t _ (by intro n; simp)]
    · intro j hj
      rw [remove_other t _ (by intro n; simp)]
      exact hlr _ j

/-! Characterization of the rehash rebuild loop. -/

theorem getLast?_cons_oor {α : Type} (a : α) (l : List α) :
    (a :: l).getLast? = oor l.getLast? (some a) := by
  induction l generalizing a with
  | nil => simp [oor]
  | cons b t ih =>
    rw [List.getLast?_cons_cons, ih b]
    cases t.getLast? <;> simp [oor]

theorem getLast?_append_oor {α : Type} (X Y : List α) :
    (X ++ Y).getLast? = oor Y.getLast? X.getLast? := by
  induction X with
  | nil =>
    cases h : Y.getLast? <;> simp [oor, h]
  | cons a X ih =>
    rw [List.cons_append, getLast?_cons_oor, ih, getLast?_cons_oor]
    cases Y.getLast? <;> cases X.getLast? <;> simp [oor]

theorem lastArrWrite_append (n : Nat) (A B : List (LuaValue × LuaValue))
    (j : Nat) :
    lastArrWrite n (A ++ B) j =
      oor (lastArrWrite n B j) (lastArrWrite n A j) := by
  unfold lastArrWrite
  rw [List.filterMap_append, getLast?_append_oor]

theorem lastHashWrite_append (n : Nat) (A B : List (LuaValue × LuaValue))
    (q : TableKey) :
    lastHashWrite n (A ++ B) q =
      oor (lastHashWrite n B q) (lastHashWrite n A q) := by
  unfold lastHashWrite
  rw [List.filterMap_append, getLast?_append_oor]

theorem rehashStep_eq (n : Nat)
    (acc : List (Option LuaValue) × List (TableKey × LuaValue))
    (kv : LuaValue × LuaValue) :
    rehashStep n acc kv =
      ((if migratesToArr n kv then acc.1.set (keyIdx kv) (some kv.2)
        else acc.1),
       (if migratesToArr n kv then acc.2
        else hashInsert acc.2 (TableKey.from_lua kv.1) kv.2)) := by
  obtain ⟨kk, vv⟩ := kv
  cases kk with
  | Int i =>
    simp only [rehashStep, migratesToArr, keyIdx, decide_eq_true_eq]
    split_ifs with hc
    · rfl
    · rfl
  | Nil => simp [rehashStep, migratesToArr, keyIdx]
  | Bool b => simp [rehashStep, migratesToArr, keyIdx]
  | Float f => simp [rehashStep, migratesToArr, keyIdx]
  | Str s => simp [rehashStep, migratesToArr, keyIdx]
  | Pointer p => simp [rehashStep, migratesToArr, keyIdx]
  | Object o => simp [rehashStep, migratesToArr, keyIdx]

theorem rehash_fold_split (n : Nat) (l : List (LuaValue × LuaValue))
    (a : List (Option LuaValue)) (h : List (TableKey × LuaValue)) :
    l.foldl (rehashStep n) (a, h) = (arrFold n a l, hashFold n h l) := by
  induction l generalizing a h with
  | nil => rfl
  | cons kv rest ih =>
    rw [List.foldl_cons, rehashStep_eq]
    rw [ih]
    simp [arrFold, hashFold]

theorem keyIdx_lt_of_migrates (n : Nat) (kv : LuaValue × LuaValue)
    (h : migratesToArr n kv = true) : keyIdx kv < n := by
  obtain ⟨kk, vv⟩ := kv
  cases kk <;> simp [migratesToArr, keyIdx] at h ⊢
  omega

theorem arrFold_length (n : Nat) (init : List (Option LuaValue))
    (l : List (LuaValue × LuaValue)) :
    (arrFold n init l).length = init.length := by
  induction l generalizing init with
  | nil => rfl
  | cons kv rest ih =>
    have h1 : arrFold n init (kv :: rest) =
        arrFold n
          (if migratesToArr n kv then init.set (keyIdx kv) (some kv.2)
           else init) rest := rfl
    rw [h1, ih]
    split <;> simp [List.length_set]

theorem arrFold_getD (n : Nat) (init : List (Option LuaValue))
    (l : List (LuaValue × LuaValue)) (j : Nat) (hinit : init.length = n) :
    (arrFold n init l).getD j none =
      oor (lastArrWrite n l j) (init.getD j none) := by
  induction l generalizing init with
  | nil => simp [arrFold, lastArrWrite, oor]
  | cons kv rest ih =>
    have h1 : arrFold n init (kv :: rest) =
        arrFold n
          (if migratesToArr n kv then init.set (keyIdx kv) (some kv.2)
           else init) rest := rfl
    have hu :
        (if migratesToArr n kv then init.set (keyIdx kv) (some kv.2)
         else init).length = n := by
      split <;> simp [List.length_set, hinit]
    rw [h1, ih _ hu]
    unfold lastArrWrite
    rw [List.filterMap_cons]
    by_cases hsel : migratesToArr n kv = true ∧ keyIdx kv = j
    · rw [if_pos hsel]
      have hread :
          (if migratesToArr n kv then init.set (keyIdx kv) (some kv.2)
           else init).getD j none = some kv.2 := by
        rw [if_pos hsel.1, ← hsel.2]
        exact getD_set_lt _ _ _ _
          (by rw [hinit]; exact keyIdx_lt_of_migrates n kv hsel.1)
      rw [hread, getLast?_cons_oor]
      cases (rest.filterMap fun kv =>
          if migratesToArr n kv = true ∧ keyIdx kv = j then some kv.2
          else none).getLast? <;> simp [oor]
    · rw [if_neg hsel]
      have hread :
          (if migratesToArr n kv then init.set (keyIdx kv) (some kv.2)
           else init).getD j none = init.getD j none := by
        by_cases hm : migratesToArr n kv = true
        · rw [if_pos hm]
          exact getD_set_ne _ _ _ _ _ (fun he => hsel ⟨hm, he⟩)
        · rw [if_neg hm]
      rw [hread]

theorem hashFold_lookup (n : Nat) (init : List (TableKey × LuaValue))
    (l : List (LuaValue × LuaValue)) (q : TableKey) :
    hlookup (hashFold n init l) q =
      oor (lastHashWrite n l q) (hlookup init q) := by
  induction l generalizing init with
  | nil => simp [hashFold, lastHashWrite, oor]
  | cons kv rest ih =>
    have h1 : hashFold n init (kv :: rest) =
        hashFold n
          (if migratesToArr n kv then init
           else hashInsert init (TableKey.from_lua kv.1) kv.2) rest := rfl
    rw [h1, ih]
    unfold lastHashWrite
    rw [List.filterMap_cons]
    by_cases hsel : ¬migratesToArr n kv = true ∧ TableKey.from_lua kv.1 = q
    · rw [if_pos hsel]
      have hread :
          hlookup
            (if migratesToArr n kv then init
             else hashInsert init (TableKey.from_lua kv.1) kv.2) q =
            some kv.2 := by
        rw [if_neg hsel.1, ← hsel.2]
        exact hlookup_hashInsert_self _ _ _
      rw [hread, getLast?_cons_oor]
      cases (rest.filterMap fun kv =>
          if ¬migratesToArr n kv = true ∧ TableKey.from_lua kv.1 = q then
            some kv.2
          else none).getLast? <;> simp [oor]
    · rw [if_neg hsel]
      have hread :
          hlookup
            (if migratesToArr n kv then init
             else hashInsert init (TableKey.from_lua kv.1) kv.2) q =
            hlookup init q := by
        by_cases hm : migratesToArr n kv = true
        · rw [if_pos hm]
        · rw [if_neg hm]
          exact hlookup_hashInsert_ne _ _ _ _
            (fun he => hsel ⟨hm, he.symm⟩)
      rw [hread]

theorem hashFold_nodup (n : Nat) (init : List (TableKey × LuaValue))
    (l : List (LuaValue × LuaValue)) (h : (init.map Prod.fst).Nodup) :
    ((hashFold n init l).map Prod.fst).Nodup := by
  induction l generalizing init with
  | nil => exact h
  | cons kv rest ih =>
    have h1 : hashFold n init (kv :: rest) =
        hashFold n
          (if migratesToArr n kv then init
           else hashInsert init (TableKey.from_lua kv.1) kv.2) rest := rfl
    rw [h1]
    apply ih
    split
    · exact h
    · exact keysNodup_hashInsert _ _ _ h

theorem lastArrWrite_cons (n : Nat) (kv : LuaValue × LuaValue)
    (l : List (LuaValue × LuaValue)) (j : Nat) :
    lastArrWrite n (kv :: l) j =
      oor (lastArrWrite n l j)
        (if migratesToArr n kv ∧ keyIdx kv = j then some kv.2 else none) := by
  unfold lastArrWrite
  rw [List.filterMap_cons]
  by_cases hsel : migratesToArr n kv = true ∧ keyIdx kv = j
  · rw [if_pos hsel]
    exact getLast?_cons_oor _ _
  · rw [if_neg hsel]
    exact (oor_none_right _).symm

theorem lastHashWrite_cons (n : Nat) (kv : LuaValue × LuaValue)
    (l : List (LuaValue × LuaValue)) (q : TableKey) :
    lastHashWrite n (kv :: l) q =
      oor (lastHashWrite n l q)
        (if ¬migratesToArr n kv ∧ TableKey.from_lua kv.1 = q then some kv.2
         else none) := by
  unfold lastHashWrite
  rw [List.filterMap_cons]
  by_cases hsel : ¬migratesToArr n kv = true ∧ TableKey.from_lua kv.1 = q
  · rw [if_pos hsel]
    exact getLast?_cons_oor _ _
  · rw [if_neg hsel]
    exact (oor_none_right _).symm

/-! Bounds on the maximum-key scan. -/

theorem computeN_fold_mono (l : List (LuaValue × LuaValue)) (a : Nat) :
    a ≤ l.foldl computeNStep a := by
  induction l generalizing a with
  | nil => exact Nat.le_refl a
  | cons kv rest ih =>
    rw [List.foldl_cons]
    refine Nat.le_trans ?_ (ih (computeNStep a kv))
    obtain ⟨kk, vv⟩ := kv
    cases kk <;> simp [computeNStep]
    split
    · exact Nat.le_max_left _ _
    · exact Nat.le_refl a

theorem computeN_mem_le (l : List (LuaValue × LuaValue)) (i : Int)
    (v : LuaValue) (a : Nat) (hmem : (LuaValue.Int i, v) ∈ l) (hi : 0 < i) :
    i.toNat ≤ l.foldl computeNStep a := by
  induction l generalizing a with
  | nil => simp at hmem
  | cons kv rest ih =>
    rw [List.foldl_cons]
    rcases List.mem_cons.mp hmem with heq | hmem2
    · rw [← heq]
      refine Nat.le_trans ?_ (computeN_fold_mono rest _)
      simp [computeNStep, hi]
    · exact ih _ hmem2

theorem computeN_ge (l : List (LuaValue × LuaValue)) (i : Int) (v : LuaValue)
    (hmem : (LuaValue.Int i, v) ∈ l) (hi : 0 < i) : i.toNat ≤ computeN l :=
  computeN_mem_le l i v 0 hmem hi

/-! The array pairs collected by rehash, through the recursive form. -/

theorem arrayPairs_eq_aux (arr : List (Option LuaValue)) (s : Nat) :
    (arr.enumFrom s).filterMap
      (fun p => p.2.map (fun v => (LuaValue.Int ((p.1 + 1 : Nat) : Int), v))) =
      arrayPairsAux s arr := by
  induction arr generalizing s with
  | nil => rfl
  | cons a rest ih =>
    cases a with
    | none => simpa [arrayPairsAux, List.enumFrom] using ih (s + 1)
    | some v => simpa [arrayPairsAux, List.enumFrom] using ih (s + 1)

theorem arrayPairs_eq (arr : List (Option LuaValue)) :
    arrayPairs arr = arrayPairsAux 0 arr := by
  unfold arrayPairs
  rw [show arr.enum = arr.enumFrom 0 from rfl]
  exact arrayPairs_eq_aux arr 0

theorem arrayPairsAux_lastArrWrite (n : Nat) (arr : List (Option LuaValue))
    (s j : Nat) :
    lastArrWrite n (arrayPairsAux s arr) j =
      if s ≤ j ∧ j < s + arr.length ∧ j + 1 ≤ n then arr.getD (j - s) none
      else none := by
  induction arr generalizing s with
  | nil =>
    rw [if_neg (by simp; omega)]
    rfl
  | cons a rest ih =>
    cases a with
    | none =>
      rw [show arrayPairsAux s (none :: rest) = arrayPairsAux (s + 1) rest
            from rfl,
          ih (s + 1)]
      simp only [List.length_cons]
      by_cases hj : j = s
      · subst hj
        rw [if_neg (by omega)]
        split
        · rw [Nat.sub_self]
          rfl
        · rfl
      · by_cases hc : s + 1 ≤ j ∧ j < s + 1 + rest.length ∧ j + 1 ≤ n
        · rw [if_pos hc, if_pos (by omega)]
          have hsub : j - s = (j - (s + 1)) + 1 := by omega
          rw [hsub, List.getD_cons_succ]
        · rw [if_neg hc, if_neg (by omega)]
    | some v =>
      rw [show arrayPairsAux s (some v :: rest) =
            (LuaValue.Int ((s + 1 : Nat) : Int), v) :: arrayPairsAux (s + 1) rest
            from rfl,
          lastArrWrite_cons, ih (s + 1)]
      simp only [List.length_cons]
      by_cases hsel : s = j ∧ s + 1 ≤ n
      · obtain ⟨hsj, hsn⟩ := hsel
        subst hsj
        have hm : migratesToArr n (LuaValue.Int ((s + 1 : Nat) : Int), v) = true := by
          simp [migratesToArr]
          omega
        have hki : keyIdx (LuaValue.Int ((s + 1 : Nat) : Int), v) = s := by
          simp [keyIdx]
        have hc1 : migratesToArr n (LuaValue.Int ((s + 1 : Nat) : Int), v) = true ∧
            keyIdx (LuaValue.Int ((s + 1 : Nat) : Int), v) = s := ⟨hm, hki⟩
        have hc2 : ¬(s + 1 ≤ s ∧ s < s + 1 + rest.length ∧ s + 1 ≤ n) := by
          omega
        have hc3 : s ≤ s ∧ s < s + (rest.length + 1) ∧ s + 1 ≤ n := by omega
        rw [if_neg hc2, if_pos hc1, if_pos hc3, Nat.sub_self]
        rfl
      · have hc1 :
            ¬(migratesToArr n (LuaValue.Int ((s + 1 : Nat) : Int), v) = true ∧
              keyIdx (LuaValue.Int ((s + 1 : Nat) : Int), v) = j) := by
          intro hcon
          obtain ⟨h1, h2⟩ := hcon
          simp [migratesToArr] at h1
          simp [keyIdx] at h2
          exact hsel ⟨by omega, by omega⟩
        rw [if_neg hc1, oor_none_right]
        by_cases hj : j = s
        · subst hj
          have hnn : ¬(j + 1 ≤ n) := fun hh => hsel ⟨rfl, hh⟩
          rw [if_neg (show ¬(j + 1 ≤ j ∧ j < j + 1 + rest.length ∧ j + 1 ≤ n)
                by omega),
              if_neg (show ¬(j ≤ j ∧ j < j + (rest.length + 1) ∧ j + 1 ≤ n)
                by intro hcon; exact hnn hcon.2.2)]
        · by_cases hc : s + 1 ≤ j ∧ j < s + 1 + rest.length ∧ j + 1 ≤ n
          · rw [if_pos hc,
                if_pos (show s ≤ j ∧ j < s + (rest.length + 1) ∧ j + 1 ≤ n
                  by omega)]
            have hsub : j - s = (j - (s + 1)) + 1 := by omega
            rw [hsub, List.getD_cons_succ]
          · rw [if_neg hc,
                if_neg (show ¬(s ≤ j ∧ j < s + (rest.length + 1) ∧ j + 1 ≤ n)
                  by omega)]

theorem arrayPairsAux_lastHashWrite (n : Nat) (arr : List (Option LuaValue))
    (s : Nat) (q : TableKey) (h : s + arr.length ≤ n) :
    lastHashWrite n (arrayPairsAux s arr) q = none := by
  induction arr generalizing s with
  | nil => rfl
  | cons a rest ih =>
    cases a with
    | none =>
      rw [show arrayPairsAux s (none :: rest) = arrayPairsAux (s + 1) rest
            from rfl]
      exact ih (s + 1) (by simp at h; omega)
    | some v =>
      rw [show arrayPairsAux s (some v :: rest) =
            (LuaValue.Int ((s + 1 : Nat) : Int), v) :: arrayPairsAux (s + 1) rest
            from rfl,
          lastHashWrite_cons]
      rw [if_neg (by
            intro hcon
            apply hcon.1
            simp [migratesToArr]
            simp at h
            omega)]
      rw [oor_none_right]
      exact ih (s + 1) (by simp at h; omega)

/-! The hash pairs collected by rehash. -/

theorem filterMap_congr_mem {α β : Type} (l : List α) (f g : α → Option β)
    (h : ∀ a ∈ l, f a = g a) : l.filterMap f = l.filterMap g := by
  induction l with
  | nil => rfl
  | cons a rest ih =>
    rw [List.filterMap_cons, List.filterMap_cons, h a (by simp),
      ih (fun a ha => h a (by simp [ha]))]

theorem filterMap_none {α β : Type} (l : List α) (f : α → Option β)
    (h : ∀ a ∈ l, f a = none) : l.filterMap f = [] := by
  induction l with
  | nil => rfl
  | cons a rest ih =>
    rw [List.filterMap_cons, h a (by simp)]
    exact ih (fun a ha => h a (by simp [ha]))

theorem filterMap_key_nil (l : List (TableKey × LuaValue)) (q : TableKey)
    (h : ∀ p ∈ l, p.1 ≠ q) :
    l.filterMap (fun p => if p.1 = q then some p.2 else none) = [] :=
  filterMap_none l _ (fun p hp => by rw [if_neg (h p hp)])

theorem filterMap_key_getLast (l : List (TableKey × LuaValue)) (q : TableKey)
    (hnodup : (l.map Prod.fst).Nodup) :
    (l.filterMap (fun p => if p.1 = q then some p.2 else none)).getLast? =
      hlookup l q := by
  induction l with
  | nil => rfl
  | cons p rest ih =>
    obtain ⟨a, b⟩ := p
    simp only [List.map_cons, List.nodup_cons] at hnodup
    by_cases ha : a = q
    · subst ha
      rw [List.filterMap_cons]
      rw [if_pos rfl]
      have hnil :
          rest.filterMap (fun p => if p.1 = a then some p.2 else none) = [] := by
        apply filterMap_key_nil
        intro p hp hpq
        exact hnodup.1 (hpq ▸ List.mem_map_of_mem Prod.fst hp)
      rw [hnil]
      simp [hlookup]
    · rw [List.filterMap_cons, if_neg ha]
      simp [hlookup, ha, ih hnodup.2]

theorem migrates_to_lua (n : Nat) (q : TableKey) (v : LuaValue) :
    migratesToArr n (TableKey.to_lua q, v) = keyMigrates n q := by
  cases q <;> rfl

theorem hashPairs_lastArrWrite (n : Nat) (hash : List (TableKey × LuaValue))
    (hnodup : (hash.map Prod.fst).Nodup) (j : Nat) (hjn : j + 1 ≤ n) :
    lastArrWrite n (hash.map fun p => (TableKey.to_lua p.1, p.2)) j =
      hlookup hash (.Int ((j + 1 : Nat) : Int)) := by
  unfold lastArrWrite
  rw [List.filterMap_map]
  rw [filterMap_congr_mem _ _
      (fun p => if p.1 = TableKey.Int ((j + 1 : Nat) : Int) then some p.2
                else none)
      ?_]
  · exact filterMap_key_getLast hash _ hnodup
  · intro p hp
    obtain ⟨hk, v⟩ := p
    simp only [Function.comp]
    cases hk with
    | Int i =>
      simp only [TableKey.to_lua, migratesToArr, keyIdx, TableKey.Int.injEq,
        decide_eq_true_eq]
      by_cases hc : i = ((j + 1 : Nat) : Int)
      · rw [if_pos (by constructor <;> omega), if_pos hc]
      · rw [if_neg (by intro hcon; exact hc (by omega)), if_neg hc]
    | Float f => simp [TableKey.to_lua, migratesToArr]
    | Str s => simp [TableKey.to_lua, migratesToArr]
    | Bool b => simp [TableKey.to_lua, migratesToArr]
    | Ptr pp => simp [TableKey.to_lua, migratesToArr]
    | Obj o => simp [TableKey.to_lua, migratesToArr]

theorem hashPairs_lastArrWrite_none (n : Nat)
    (hash : List (TableKey × LuaValue)) (j : Nat) (hjn : ¬j + 1 ≤ n) :
    lastArrWrite n (hash.map fun p => (TableKey.to_lua p.1, p.2)) j = none := by
  unfold lastArrWrite
  rw [List.filterMap_map]
  rw [filterMap_none]
  · rfl
  · intro p hp
    obtain ⟨hk, v⟩ := p
    simp only [Function.comp]
    cases hk with
    | Int i =>
      simp only [TableKey.to_lua, migratesToArr, keyIdx, decide_eq_true_eq]
      rw [if_neg (by intro hcon; omega)]
    | Float f => simp [TableKey.to_lua, migratesToArr]
    | Str s => simp [TableKey.to_lua, migratesToArr]
    | Bool b => simp [TableKey.to_lua, migratesToArr]
    | Ptr pp => simp [TableKey.to_lua, migratesToArr]
    | Obj o => simp [TableKey.to_lua, migratesToArr]

theorem hashPairs_lastHashWrite (n : Nat) (hash : List (TableKey × LuaValue))
    (hnodup : (hash.map Prod.fst).Nodup) (q : TableKey)
    (hq : keyMigrates n q = false) :
    lastHashWrite n (hash.map fun p => (TableKey.to_lua p.1, p.2)) q =
      hlookup hash q := by
  unfold lastHashWrite
  rw [List.filterMap_map]
  rw [filterMap_congr_mem _ _
      (fun p => if p.1 = q then some p.2 else none) ?_]
  · exact filterMap_key_getLast hash _ hnodup
  · intro p hp
    obtain ⟨hk, v⟩ := p
    simp only [Function.comp, migrates_to_lua, from_to_lua]
    by_cases hc : hk = q
    · subst hc
      rw [if_pos ⟨by simp [hq], rfl⟩, if_pos rfl]
    · rw [if_neg (by intro hcon; exact hc hcon.2), if_neg hc]

theorem hashPairs_lastHashWrite_migr (n : Nat)
    (hash : List (TableKey × LuaValue)) (q : TableKey)
    (hq : keyMigrates n q = true) :
    lastHashWrite n (hash.map fun p => (TableKey.to_lua p.1, p.2)) q = none := by
  unfold lastHashWrite
  rw [List.filterMap_map]
  rw [filterMap_none]
  · rfl
  · intro p hp
    obtain ⟨hk, v⟩ := p
    simp only [Function.comp, migrates_to_lua, from_to_lua]
    by_cases hc : hk = q
    · subst hc
      rw [if_neg (by intro hcon; exact hcon.1 (by simp [hq]))]
    · rw [if_neg (by intro hcon; exact hc hcon.2)]

theorem hlookup_isSome_mem (l : List (TableKey × LuaValue)) (q : TableKey)
    (h : (hlookup l q).isSome) : ∃ v, (q, v) ∈ l := by
  induction l with
  | nil => simp [hlookup] at h
  | cons p rest ih =>
    obtain ⟨a, b⟩ := p
    by_cases ha : a = q
    · subst ha
      exact ⟨b, by simp⟩
    · rw [hlookup, if_neg ha] at h
      obtain ⟨v, hv⟩ := ih h
      exact ⟨v, by simp [hv]⟩

/-! Rehash preserves lookups. -/

theorem rehash_arr (t : Table) :
    (t.rehash).arr =
      arrFold (computeN (allPairs t))
        (List.replicate (computeN (allPairs t)) none) (allPairs t) := by
  unfold Table.rehash
  simp only [rehash_fold_split]

theorem rehash_hash (t : Table) :
    (t.rehash).hash = hashFold (computeN (allPairs t)) [] (allPairs t) := by
  unfold Table.rehash
  simp only [rehash_fold_split]

theorem rehash_arr_len (t : Table) :
    (t.rehash).arr.length = computeN (allPairs t) := by
  rw [rehash_arr, arrFold_length, List.length_replicate]

theorem arrayPairsAux_key_shape (arr : List (Option LuaValue)) (s : Nat)
    (kv : LuaValue × LuaValue) (h : kv ∈ arrayPairsAux s arr) :
    ∃ m : Nat, kv.1 = LuaValue.Int ((m + 1 : Nat) : Int) := by
  induction arr generalizing s with
  | nil => simp [arrayPairsAux] at h
  | cons a rest ih =>
    cases a with
    | none => exact ih (s + 1) h
    | some v =>
      rcases List.mem_cons.mp h with heq | hmem
    -- fallthrough handled below
      · exact ⟨s, by rw [heq]⟩
      · exact ih (s + 1) hmem

theorem arrayPairsAux_mem_intro (arr : List (Option LuaValue)) (s m : Nat)
    (w : LuaValue) (hm : m < arr.length) (hv : arr.getD m none = some w) :
    (LuaValue.Int ((s + m + 1 : Nat) : Int), w) ∈ arrayPairsAux s arr := by
  induction arr generalizing s m with
  | nil => simp at hm
  | cons a rest ih =>
    cases m with
    | zero =>
      cases a with
      | none => simp at hv
      | some v =>
        have : v = w := by simpa using hv
        subst this
        simp [arrayPairsAux]
    | succ m2 =>
      have hmem := ih (s + 1) m2 (by simpa using hm) (by simpa using hv)
      cases a with
      | none =>
        rw [show arrayPairsAux s (none :: rest) = arrayPairsAux (s + 1) rest
              from rfl]
        have harith : s + 1 + m2 + 1 = s + (m2 + 1) + 1 := by omega
        rw [harith] at hmem
        exact hmem
      | some v =>
        rw [show arrayPairsAux s (some v :: rest) =
              (LuaValue.Int ((s + 1 : Nat) : Int), v) ::
                arrayPairsAux (s + 1) rest from rfl]
        have harith : s + 1 + m2 + 1 = s + (m2 + 1) + 1 := by omega
        rw [harith] at hmem
        exact List.mem_cons_of_mem _ hmem

theorem lastHashWrite_none_of_migrates (n : Nat)
    (l : List (LuaValue × LuaValue)) (q : TableKey)
    (h : ∀ kv ∈ l, migratesToArr n kv = true) :
    lastHashWrite n l q = none := by
  unfold lastHashWrite
  rw [filterMap_none]
  · rfl
  · intro kv hkv
    rw [if_neg (fun hcon => hcon.1 (h kv hkv))]

theorem arrayPairs_all_migrate (t : Table) (kv : LuaValue × LuaValue)
    (h : kv ∈ arrayPairs t.arr) :
    migratesToArr (computeN (allPairs t)) kv = true := by
  rw [arrayPairs_eq] at h
  obtain ⟨m, hm⟩ := arrayPairsAux_key_shape t.arr 0 kv h
  have hmem : kv ∈ allPairs t := by
    unfold allPairs
    exact List.mem_append_left _ (by rw [arrayPairs_eq]; exact h)
  have hkv : kv = (LuaValue.Int ((m + 1 : Nat) : Int), kv.2) := by
    rw [← hm]
  have hbound : ((m + 1 : Nat) : Int).toNat ≤ computeN (allPairs t) := by
    apply computeN_ge (allPairs t) _ kv.2 (hkv ▸ hmem)
    omega
  rw [hkv]
  simp [migratesToArr]
  omega

theorem lastHashWrite_allPairs (n : Nat) (t : Table) (q : TableKey) :
    lastHashWrite n (allPairs t) q =
      oor (lastHashWrite n (t.hash.map fun p => (TableKey.to_lua p.1, p.2)) q)
        (lastHashWrite n (arrayPairs t.arr) q) :=
  lastHashWrite_append n _ _ q

theorem lastArrWrite_allPairs (n : Nat) (t : Table) (j : Nat) :
    lastArrWrite n (allPairs t) j =
      oor (lastArrWrite n (t.hash.map fun p => (TableKey.to_lua p.1, p.2)) j)
        (lastArrWrite n (arrayPairs t.arr) j) :=
  lastArrWrite_append n _ _ j

theorem rehash_hash_int_none (t : Table) (hwf : WF t) (j : Int) (hj : 0 < j) :
    hlookup (t.rehash).hash (TableKey.Int j) = none := by
  rw [rehash_hash, hashFold_lookup, lastHashWrite_allPairs]
  have hA : lastHashWrite (computeN (allPairs t)) (arrayPairs t.arr)
      (TableKey.Int j) = none :=
    lastHashWrite_none_of_migrates _ _ _
      (fun kv hkv => arrayPairs_all_migrate t kv hkv)
  rw [hA, oor_none_right]
  by_cases hjn : j.toNat ≤ computeN (allPairs t)
  · rw [hashPairs_lastHashWrite_migr (computeN (allPairs t)) t.hash _
        (by simp [keyMigrates]; omega)]
    rfl
  · rw [hashPairs_lastHashWrite (computeN (allPairs t)) t.hash hwf.1 _
        (by simp [keyMigrates]; omega)]
    cases hval : hlookup t.hash (TableKey.Int j) with
    | none => rfl
    | some w =>
      exfalso
      obtain ⟨v, hv⟩ := hlookup_isSome_mem t.hash (TableKey.Int j)
        (by simp [hval])
      have hmem : (LuaValue.Int j, v) ∈ allPairs t := by
        unfold allPairs
        refine List.mem_append_right _ ?_
        have := List.mem_map_of_mem
          (fun p => (TableKey.to_lua p.1, p.2)) hv
        simpa [TableKey.to_lua] using this
      exact hjn (computeN_ge (allPairs t) j v hmem hj)

theorem rehash_hlookup_nomigr (t : Table) (hwf : WF t) (q : TableKey)
    (hq : keyMigrates (computeN (allPairs t)) q = false) :
    hlookup (t.rehash).hash q = hlookup t.hash q := by
  rw [rehash_hash, hashFold_lookup, lastHashWrite_allPairs]
  have hA : lastHashWrite (computeN (allPairs t)) (arrayPairs t.arr) q = none :=
    lastHashWrite_none_of_migrates _ _ _
      (fun kv hkv => arrayPairs_all_migrate t kv hkv)
  rw [hA, oor_none_right]
  rw [hashPairs_lastHashWrite (computeN (allPairs t)) t.hash hwf.1 _ hq]
  exact oor_none_right _

theorem WF_rehash (t : Table) (hwf : WF t) : WF (t.rehash) := by
  constructor
  · rw [rehash_hash]
    exact hashFold_nodup _ _ _ (by simp)
  · intro j hj hsome
    rw [rehash_hash_int_none t hwf j hj] at hsome
    simp at hsome

theorem rehash_get (t : Table) (hwf : WF t) (k : LuaValue) :
    (t.rehash).get k = t.get k := by
  cases k with
  | Int j =>
    by_cases hj0 : 0 < j
    · by_cases hjn : j.toNat ≤ computeN (allPairs t)
      · rw [get_int_arr (t.rehash) j hj0 (by rw [rehash_arr_len]; exact hjn)]
        rw [rehash_arr]
        rw [arrFold_getD _ _ _ _ (by rw [List.length_replicate])]
        have hrep : (List.replicate (computeN (allPairs t)) none).getD
            (j.toNat - 1) (none : Option LuaValue) = none := by
          by_cases h : j.toNat - 1 < computeN (allPairs t)
          · exact getD_replicate_lt _ _ _ _ h
          · exact getD_of_len_le _ _ _ (by rw [List.length_replicate]; omega)
        rw [hrep, oor_none_right, lastArrWrite_allPairs]
        have hcast : ((j.toNat - 1 + 1 : Nat) : Int) = j := by omega
        rw [hashPairs_lastArrWrite (computeN (allPairs t)) t.hash hwf.1
              (j.toNat - 1) (by omega), hcast]
        rw [arrayPairs_eq, arrayPairsAux_lastArrWrite]
        by_cases hjarr : j.toNat ≤ t.arr.length
        · have hhn : hlookup t.hash (TableKey.Int j) = none := by
            cases hval : hlookup t.hash (TableKey.Int j) with
            | none => rfl
            | some w =>
              have := (hwf.2 j hj0 (by simp [hval])).1
              omega
          have hc : 0 ≤ j.toNat - 1 ∧ j.toNat - 1 < 0 + t.arr.length ∧
              j.toNat - 1 + 1 ≤ computeN (allPairs t) := by
            refine ⟨by omega, by omega, by omega⟩
          rw [hhn, if_pos hc]
          rw [get_int_arr t j hj0 hjarr]
          simp [oor]
        · have hc : ¬(0 ≤ j.toNat - 1 ∧ j.toNat - 1 < 0 + t.arr.length ∧
              j.toNat - 1 + 1 ≤ computeN (allPairs t)) := by omega
          rw [if_neg hc, oor_none_right]
          rw [get_int_hash t j (fun hcon => hjarr hcon.2)]
      · rw [get_int_hash (t.rehash) j
            (by intro hc; rw [rehash_arr_len] at hc; exact hjn hc.2)]
        rw [rehash_hash_int_none t hwf j hj0]
        by_cases hjarr : j.toNat ≤ t.arr.length
        · rw [get_int_arr t j hj0 hjarr]
          cases hval : t.arr.getD (j.toNat - 1) none with
          | none => rfl
          | some w =>
            exfalso
            have hmem : (LuaValue.Int ((0 + (j.toNat - 1) + 1 : Nat) : Int), w)
                ∈ arrayPairsAux 0 t.arr :=
              arrayPairsAux_mem_intro t.arr 0 (j.toNat - 1) w (by omega) hval
            have hmem2 : (LuaValue.Int ((0 + (j.toNat - 1) + 1 : Nat) : Int), w)
                ∈ allPairs t := by
              unfold allPairs
              exact List.mem_append_left _ (by rw [arrayPairs_eq]; exact hmem)
            have hge := computeN_ge (allPairs t) _ w hmem2 (by omega)
            have : (((0 + (j.toNat - 1) + 1 : Nat) : Int)).toNat = j.toNat := by
              omega
            omega
        · rw [get_int_hash t j (fun hc => hjarr hc.2)]
          cases hval : hlookup t.hash (TableKey.Int j) with
          | none => rfl
          | some w =>
            exfalso
            obtain ⟨v, hv⟩ := hlookup_isSome_mem t.hash (TableKey.Int j)
              (by simp [hval])
            have hmem : (LuaValue.Int j, v) ∈ allPairs t := by
              unfold allPairs
              refine List.mem_append_right _ ?_
              have := List.mem_map_of_mem
                (fun p => (TableKey.to_lua p.1, p.2)) hv
              simpa [TableKey.to_lua] using this
            exact hjn (computeN_ge (allPairs t) j v hmem hj0)
    · rw [get_int_hash (t.rehash) j (fun hc => absurd hc.1 hj0),
          get_int_hash t j (fun hc => absurd hc.1 hj0)]
      exact rehash_hlookup_nomigr t hwf _ (by simp [keyMigrates]; omega)
  | Nil =>
    rw [get_other _ _ (by intro n; simp), get_other t _ (by intro n; simp)]
    exact rehash_hlookup_nomigr t hwf _ rfl
  | Bool b =>
    rw [get_other _ _ (by intro n; simp), get_other t _ (by intro n; simp)]
    exact rehash_hlookup_nomigr t hwf _ rfl
  | Float f =>
    rw [get_other _ _ (by intro n; simp), get_other t _ (by intro n; simp)]
    exact rehash_hlookup_nomigr t hwf _ rfl
  | Str s =>
    rw [get_other _ _ (by intro n; simp), get_other t _ (by intro n; simp)]
    exact rehash_hlookup_nomigr t hwf _ rfl
  | Pointer p =>
    rw [get_other _ _ (by intro n; simp), get_other t _ (by intro n; simp)]
    exact rehash_hlookup_nomigr t hwf _ rfl
  | Object o =>
    rw [get_other _ _ (by intro n; simp), get_other t _ (by intro n; simp)]
    exact rehash_hlookup_nomigr t hwf _ rfl

/-! The structural invariant holds of every reachable table. -/

theorem get_new (k : LuaValue) : Table.new.get k = none := by
  cases k with
  | Int i =>
    rw [get_int_hash Table.new i (by simp [Table.new])]
    rfl
  | Nil => rw [get_other _ _ (by intro n; simp)]; rfl
  | Bool b => rw [get_other _ _ (by intro n; simp)]; rfl
  | Float f => rw [get_other _ _ (by intro n; simp)]; rfl
  | Str s => rw [get_other _ _ (by intro n; simp)]; rfl
  | Pointer p => rw [get_other _ _ (by intro n; simp)]; rfl
  | Object o => rw [get_other _ _ (by intro n; simp)]; rfl

theorem WF_applyOp (t : Table) (op : TableOp) (hwf : WF t) :
    WF (applyOp t op) := by
  cases op with
  | set k v => exact WF_set t k v hwf
  | remove k => exact WF_remove t k hwf
  | rehash => exact WF_rehash t hwf

theorem WF_applyOps (t : Table) (ops : List TableOp) (hwf : WF t) :
    WF (applyOps t ops) := by
  induction ops generalizing t with
  | nil => exact hwf
  | cons op rest ih => exact ih _ (WF_applyOp t op hwf)

theorem WF_reachable (t : Table) (h : Reachable t) : WF t := by
  obtain ⟨ops, hops⟩ := h
  rw [← hops]
  exact WF_applyOps _ _ WF_new

theorem WF_foldl_set (t : Table) (ops : List (LuaValue × LuaValue))
    (hwf : WF t) : WF (ops.foldl (fun t kv => t.set kv.1 kv.2) t) := by
  induction ops generalizing t with
  | nil => exact hwf
  | cons kv rest ih => exact ih _ (WF_set _ _ _ hwf)

theorem WF_applySets (ops : List (LuaValue × LuaValue)) :
    WF (applySets ops) :=
  WF_foldl_set Table.new ops WF_new

theorem applySets_append_single (l : List (LuaValue × LuaValue))
    (kv : LuaValue × LuaValue) :
    applySets (l ++ [kv]) = (applySets l).set kv.1 kv.2 := by
  unfold applySets
  rw [List.foldl_append]
  rfl

theorem lastVal_append_single (l : List (LuaValue × LuaValue))
    (kv : LuaValue × LuaValue) (k : LuaValue) :
    lastVal (l ++ [kv]) k = if kv.1 = k then some kv.2 else lastVal l k := by
  unfold lastVal
  rw [List.filterMap_append, getLast?_append_oor]
  by_cases h : kv.1 = k
  · rw [if_pos h]
    simp [h, oor]
  · rw [if_neg h]
    simp [h, oor]

theorem applySets_get (ops : List (LuaValue × LuaValue)) (k : LuaValue)
    (hk : isTableKey k = true)
    (hops : ∀ kv ∈ ops, isTableKey kv.1 = true) :
    (applySets ops).get k = lastVal ops k := by
  revert hops
  induction ops using List.reverseRecOn with
  | nil =>
    intro _
    rw [show applySets [] = Table.new from rfl, get_new]
    rfl
  | append_singleton l kv ih =>
    intro hops
    rw [applySets_append_single, lastVal_append_single]
    by_cases h : kv.1 = k
    · rw [if_pos h, ← h, get_set_self]
    · rw [if_neg h]
      rw [get_set_ne (applySets l) kv.1 k kv.2 (WF_applySets l)
            (hops kv (by simp)) hk (fun hh => h hh.symm)]
      exact ih (fun kv2 hm => hops kv2 (by simp [hm]))

/-! Cross-key independence of set for keys of different constructors
(no invariant needed). -/

theorem from_lua_nonint (k : LuaValue) (hk : ∀ n : Int, k ≠ .Int n) (i : Int) :
    TableKey.from_lua k ≠ TableKey.Int i := by
  cases k
  case Int n => exact absurd rfl (hk n)
  all_goals simp [TableKey.from_lua]

theorem get_int_set_nonint (t : Table) (k : LuaValue)
    (hk : ∀ n : Int, k ≠ .Int n) (w : LuaValue) (i : Int) :
    (t.set k w).get (.Int i) = t.get (.Int i) := by
  have harr : (t.set k w).arr = t.arr := set_arr_other t k w hk
  by_cases hc : 0 < i ∧ i.toNat ≤ t.arr.length
  · rw [get_int_arr _ i hc.1 (by rw [harr]; exact hc.2),
        get_int_arr t i hc.1 hc.2, harr]
  · rw [get_int_hash _ i (by rw [harr]; exact hc), get_int_hash t i hc,
        set_hash_other t k w hk]
    exact hlookup_hashInsert_ne _ _ _ _
      (fun h => from_lua_nonint k hk i h.symm)

theorem get_nonint_set_int (t : Table) (i : Int) (v : LuaValue)
    (k : LuaValue) (hk : ∀ n : Int, k ≠ .Int n) :
    (t.set (.Int i) v).get k = t.get k := by
  rw [get_other _ k hk, get_other t k hk]
  by_cases hi : 0 < i
  · by_cases h1 : i.toNat - 1 < t.arr.length
    · rw [set_hash_int_arr t i v hi h1]
    · by_cases h2 : i.toNat - 1 < MAX_ARRAY_SIZE
      · rw [set_hash_int_grow t i v hi h1 h2]
      · rw [set_hash_int_hash t i v hi h1 h2]
        exact hlookup_hashInsert_ne _ _ _ _ (from_lua_nonint k hk i)
  · rw [set_hash_int_nonpos t i v hi]
    exact hlookup_hashInsert_ne _ _ _ _ (from_lua_nonint k hk i)

/-! Claim theorems. -/

/-- C1: Table round-trip — after any sequence of set(k, v) operations on a
fresh table followed by one rehash, get(k) returns the last value set for k,
for every valid (non-nil) key, array and hash keys alike.  (For a nil key
the claim is outside the spec: §3 requires keys to be non-nil, and the
model's from_lua sends Nil to the null-pointer fallback key.) -/
theorem table_set_rehash_roundtrip (ops : List (LuaValue × LuaValue))
    (k : LuaValue) (hk : isTableKey k = true)
    (hops : ∀ kv ∈ ops, isTableKey kv.1 = true) :
    ((applySets ops).rehash).get k = lastVal ops k := by
  rw [rehash_get _ (WF_applySets ops) k]
  exact applySets_get ops k hk hops

theorem table_set_rehash_roundtrip_witness :
    isTableKey (LuaValue.Int 1) = true ∧
    (∀ kv ∈ ([(LuaValue.Int 1, LuaValue.Int 10),
        (LuaValue.Str "x", LuaValue.Int 5),
        (LuaValue.Int 1, LuaValue.Int 20)] : List (LuaValue × LuaValue)),
      isTableKey kv.1 = true) ∧
    ((applySets [(LuaValue.Int 1, LuaValue.Int 10),
        (LuaValue.Str "x", LuaValue.Int 5),
        (LuaValue.Int 1, LuaValue.Int 20)]).rehash).get (LuaValue.Int 1) =
      lastVal [(LuaValue.Int 1, LuaValue.Int 10),
        (LuaValue.Str "x", LuaValue.Int 5),
        (LuaValue.Int 1, LuaValue.Int 20)] (LuaValue.Int 1) := by
  refine ⟨rfl, ?_, ?_⟩
  · intro kv hkv
    simp only [List.mem_cons, List.not_mem_nil, or_false] at hkv
    rcases hkv with rfl | rfl | rfl <;> rfl
  · exact table_set_rehash_roundtrip _ _ rfl
      (by
        intro kv hkv
        simp only [List.mem_cons, List.not_mem_nil, or_false] at hkv
        rcases hkv with rfl | rfl | rfl <;> rfl)

/-- C7: Array/hash placement — every table reachable from Table::new by the
public operations (set, remove, rehash) keeps each present positive integer
key within the array bound in the array part (and absent from the hash
part), and serves every other key from the hash part. -/
theorem array_hash_placement (t : Table) (hr : Reachable t) : Placement t := by
  have hwf := WF_reachable t hr
  constructor
  · intro i hi hle
    refine ⟨?_, get_int_arr t i hi hle⟩
    cases hval : hlookup t.hash (TableKey.Int i) with
    | none => rfl
    | some w =>
      have := (hwf.2 i hi (by simp [hval])).1
      omega
  · intro k hk
    cases k with
    | Int i =>
      rw [get_int_hash t i (fun hc => (hk i hc.1 hc.2) rfl)]
      rfl
    | Nil => exact get_other t _ (by intro n; simp)
    | Bool b => exact get_other t _ (by intro n; simp)
    | Float f => exact get_other t _ (by intro n; simp)
    | Str s => exact get_other t _ (by intro n; simp)
    | Pointer p => exact get_other t _ (by intro n; simp)
    | Object o => exact get_other t _ (by intro n; simp)

theorem array_hash_placement_witness :
    Reachable (applyOps Table.new
      [TableOp.set (LuaValue.Int 1) (LuaValue.Int 10)]) ∧
    Placement (applyOps Table.new
      [TableOp.set (LuaValue.Int 1) (LuaValue.Int 10)]) :=
  ⟨⟨[TableOp.set (LuaValue.Int 1) (LuaValue.Int 10)], rfl⟩,
   array_hash_placement _
     ⟨[TableOp.set (LuaValue.Int 1) (LuaValue.Int 10)], rfl⟩⟩

/-- C10: Integer and float keys are distinct — the key translation keeps the
Int and Float constructors apart, and after setting a value under an integer
key and a value under a float key (in either order), get under each key
returns its own last-set value: neither set overwrites or shadows the
other. -/
theorem int_float_keys_distinct (t : Table) (i : Int) (r : FloatRep)
    (v w : LuaValue) :
    TableKey.from_lua (LuaValue.Int i) ≠
      TableKey.from_lua (LuaValue.Float r) ∧
    ((t.set (LuaValue.Int i) v).set (LuaValue.Float r) w).get
        (LuaValue.Int i) = some v ∧
    ((t.set (LuaValue.Int i) v).set (LuaValue.Float r) w).get
        (LuaValue.Float r) = some w ∧
    ((t.set (LuaValue.Float r) w).set (LuaValue.Int i) v).get
        (LuaValue.Float r) = some w := by
  refine ⟨by simp [TableKey.from_lua], ?_, ?_, ?_⟩
  · rw [get_int_set_nonint _ (LuaValue.Float r) (by intro n; simp) w i]
    exact get_set_self t _ v
  · exact get_set_self _ _ w
  · rw [get_nonint_set_int _ i v (LuaValue.Float r) (by intro n; simp)]
    exact get_set_self t _ w

/-- C2: The iteration claim fails in the code.  Table::next's array scan
starts one slot past the last integer key (enumerate().skip(idx) with idx
the key's value), so the entry that follows an array key is consumed as the
resume marker instead of being returned, and the traversal stops.  On the
repository's own test_table_next table (array keys 1 and 2, string key a),
next(Some(1)) returns None although key 2 is present and was never removed —
keys 2 and a are skipped. -/
theorem next_skips_after_array_key :
    nextBugTable.next none =
      some (LuaValue.Int 1, LuaValue.Int 10) ∧
    nextBugTable.next (some (LuaValue.Int 1)) = none ∧
    nextBugTable.get (LuaValue.Int 2) = some (LuaValue.Int 20) ∧
    nextBugTable.get (LuaValue.Str "a") = some (LuaValue.Int 30) :=
  ⟨rfl, rfl, rfl, rfl⟩

set_option maxRecDepth 100000 in
/-- C8: The rehash-split claim fails in the code.  Table::rehash sizes the
new array part by the maximum positive integer key (new_array_size is the
running max; the more-than-half-used counter `used` is computed but never
read), not by the spec's largest more-than-half-occupied power-of-two
boundary.  On the repository's own test_table_rehash input (keys 1, 2, 100),
the rebuilt array part has 100 slots and len() = 100, while the spec's rule
(specArraySize, modelled from the spec) picks 2 — the value the repository's
test itself asserts. -/
theorem rehash_sizes_by_max_key :
    rehashBugTable.rehash.arr.length = 100 ∧
    rehashBugTable.rehash.len = 100 ∧
    specArraySize [1, 2, 100] = 2 :=
  ⟨rfl, rfl, rfl⟩

/-! The length border law: supporting lemmas about the countdown loop of
Table::len, the fill operations, and the border counterexample table. -/

theorem set_append_singleton {α} (l : List α) (a b : α) (n : Nat)
    (hn : n = l.length) : (l ++ [a]).set n b = l ++ [b] := by
  subst hn
  induction l with
  | nil => rfl
  | cons x xs ih => simp [ih]

theorem applyOps_append (t : Table) (l1 l2 : List TableOp) :
    applyOps t (l1 ++ l2) = applyOps (applyOps t l1) l2 := by
  unfold applyOps
  rw [List.foldl_append]

theorem applyOps_single_set (t : Table) (k v : LuaValue) :
    applyOps t [.set k v] = t.set k v := rfl

theorem fillTable_eq (k : Nat) (hk : k ≤ MAX_ARRAY_SIZE) :
    applyOps Table.new (fillOps k) =
      ⟨List.replicate k (some (LuaValue.Int 0)), [], none, .Normal⟩ := by
  induction k with
  | zero => rfl
  | succ m ih =>
    rw [show fillOps (m + 1) =
          fillOps m ++ [.set (.Int ((m + 1 : Nat) : Int)) (.Int 0)] from rfl,
        applyOps_append, ih (by omega)]
    show (⟨List.replicate m (some (LuaValue.Int 0)), [], none,
        .Normal⟩ : Table).set (.Int ((m + 1 : Nat) : Int)) (.Int 0) = _
    have htn : (((m + 1 : Nat) : Int)).toNat = m + 1 := by omega
    have h0 : (0 : Int) < ((m + 1 : Nat) : Int) := by omega
    have h1 : ¬(((m + 1 : Nat) : Int)).toNat - 1 <
        (⟨List.replicate m (some (LuaValue.Int 0)), [], none,
          .Normal⟩ : Table).arr.length := by
      simp [htn]
    have h2 : (((m + 1 : Nat) : Int)).toNat - 1 < MAX_ARRAY_SIZE := by omega
    rw [set_int_grow _ _ _ h0 h1 h2]
    have harr : ((List.replicate m (some (LuaValue.Int 0)) ++
        List.replicate ((((m + 1 : Nat) : Int)).toNat - 1 + 1 -
          (List.replicate m (some (LuaValue.Int 0))).length) none).set
        ((((m + 1 : Nat) : Int)).toNat - 1) (some (LuaValue.Int 0))) =
        List.replicate (m + 1) (some (LuaValue.Int 0)) := by
      rw [htn, List.length_replicate,
          show m + 1 - 1 + 1 - m = 1 from by omega,
          show m + 1 - 1 = m from by omega,
          show List.replicate 1 (none : Option LuaValue) = [none] from rfl,
          set_append_singleton _ _ _ m (by simp), ← List.replicate_succ']
    rw [harr]

theorem borderTable_struct :
    borderTable = ⟨List.replicate MAX_ARRAY_SIZE (some (LuaValue.Int 0)),
      [(TableKey.Int ((MAX_ARRAY_SIZE + 1 : Nat) : Int), LuaValue.Int 0)],
      none, .Normal⟩ := by
  unfold borderTable borderOps
  rw [applyOps_append, fillTable_eq MAX_ARRAY_SIZE (le_refl _),
      applyOps_single_set]
  have htn : (((MAX_ARRAY_SIZE + 1 : Nat) : Int)).toNat =
      MAX_ARRAY_SIZE + 1 := by omega
  have h0 : (0 : Int) < ((MAX_ARRAY_SIZE + 1 : Nat) : Int) := by omega
  have h1 : ¬(((MAX_ARRAY_SIZE + 1 : Nat) : Int)).toNat - 1 <
      (⟨List.replicate MAX_ARRAY_SIZE (some (LuaValue.Int 0)), [], none,
        .Normal⟩ : Table).arr.length := by
    simp [htn]
  have h2 : ¬(((MAX_ARRAY_SIZE + 1 : Nat) : Int)).toNat - 1 <
      MAX_ARRAY_SIZE := by omega
  rw [set_int_hash _ _ _ h0 h1 h2]
  rfl

theorem lenFrom_le (arr : List (Option LuaValue)) (m : Nat) :
    lenFrom arr m ≤ m := by
  induction m with
  | zero => simp [lenFrom]
  | succ k ih =>
    by_cases hc : arr.getD k none = none
    · simp only [lenFrom]
      rw [if_pos hc]
      omega
    · simp only [lenFrom]
      rw [if_neg hc]

theorem lenFrom_pos_getD (arr : List (Option LuaValue)) (m : Nat)
    (h : 0 < lenFrom arr m) : arr.getD (lenFrom arr m - 1) none ≠ none := by
  induction m with
  | zero => simp [lenFrom] at h
  | succ k ih =>
    by_cases hc : arr.getD k none = none
    · simp only [lenFrom] at h ⊢
      rw [if_pos hc] at h ⊢
      exact ih h
    · simp only [lenFrom]
      rw [if_neg hc]
      simpa using hc

theorem lenFrom_trailing (arr : List (Option LuaValue)) (m j : Nat)
    (hj1 : lenFrom arr m ≤ j) (hj2 : j < m) : arr.getD j none = none := by
  induction m with
  | zero => omega
  | succ k ih =>
    by_cases hc : arr.getD k none = none
    · simp only [lenFrom] at hj1
      rw [if_pos hc] at hj1
      by_cases hjk : j = k
      · subst hjk
        exact hc
      · exact ih hj1 (by omega)
    · simp only [lenFrom] at hj1
      rw [if_neg hc] at hj1
      omega

theorem lenFrom_replicate_full (k : Nat) (x : LuaValue) :
    lenFrom (List.replicate k (some x)) k = k := by
  cases k with
  | zero => rfl
  | succ m =>
    have hg : (List.replicate (m + 1) (some x)).getD m none = some x :=
      getD_replicate_lt _ _ _ _ (by omega)
    simp [lenFrom, hg]

theorem borderTable_len : borderTable.len = MAX_ARRAY_SIZE := by
  rw [borderTable_struct]
  show lenFrom (List.replicate MAX_ARRAY_SIZE (some (LuaValue.Int 0)))
      (List.replicate MAX_ARRAY_SIZE (some (LuaValue.Int 0))).length =
      MAX_ARRAY_SIZE
  rw [List.length_replicate]
  exact lenFrom_replicate_full _ _

/-- C9: The border law as claimed (for every table) fails: in the reachable
table whose array part is full up to MAX_ARRAY_SIZE and which holds the key
MAX_ARRAY_SIZE + 1 in the hash part, len() returns MAX_ARRAY_SIZE although
slot MAX_ARRAY_SIZE + 1 is non-nil.  The law does hold for every reachable
table whose array part is below MAX_ARRAY_SIZE: len() returns an n with slot
n non-nil (when n > 0) and slot n + 1 nil — on the spec's example (a table
from 1,2,3 with index 2 removed) the returned n satisfies the law. -/
theorem len_border_law (t : Table) (hr : Reachable t)
    (hlt : t.arr.length < MAX_ARRAY_SIZE) : BorderLaw t := by
  have hwf := WF_reachable t hr
  have hle : t.len ≤ t.arr.length := lenFrom_le t.arr t.arr.length
  constructor
  · intro hpos
    have htn : (((t.len : Nat) : Int)).toNat = t.len := by omega
    rw [get_int_arr t ((t.len : Nat) : Int) (by omega)
          (by rw [htn]; exact hle), htn]
    exact lenFrom_pos_getD t.arr t.arr.length hpos
  · have htn : (((t.len + 1 : Nat) : Int)).toNat = t.len + 1 := by omega
    by_cases hc : t.len + 1 ≤ t.arr.length
    · rw [get_int_arr t ((t.len + 1 : Nat) : Int) (by omega)
            (by rw [htn]; exact hc), htn]
      simp only [Nat.add_sub_cancel]
      exact lenFrom_trailing t.arr t.arr.length t.len (le_refl _) (by omega)
    · rw [get_int_hash t ((t.len + 1 : Nat) : Int)
            (fun hcc => hc (htn ▸ hcc.2))]
      cases hval : hlookup t.hash (.Int ((t.len + 1 : Nat) : Int)) with
      | none => rfl
      | some w =>
        have hh := (hwf.2 ((t.len + 1 : Nat) : Int) (by omega)
          (by rw [hval]; rfl)).2
        omega

theorem len_border_law_witness :
    Reachable holeTable ∧ holeTable.arr.length < MAX_ARRAY_SIZE ∧
    BorderLaw holeTable :=
  ⟨⟨holeOps, rfl⟩, by decide,
   len_border_law holeTable ⟨holeOps, rfl⟩ (by decide)⟩

theorem len_border_cex : Reachable borderTable ∧ ¬BorderLaw borderTable := by
  refine ⟨⟨borderOps, rfl⟩, fun hb => ?_⟩
  have h2 := hb.2
  rw [borderTable_len, borderTable_struct] at h2
  have htn : (((MAX_ARRAY_SIZE + 1 : Nat) : Int)).toNat =
      MAX_ARRAY_SIZE + 1 := by omega
  rw [get_int_hash _ _ (by
        intro hcc
        rw [htn] at hcc
        simp [List.length_replicate] at hcc)] at h2
  simp [hlookup] at h2

/-- C3: The unwinding claim fails in the code: luaD_pcall_safe performs no
stack restoration at all.  What holds instead: on a panicking body the call
reports RuntimeError and returns exactly the stack the body left behind
(top included — not the boundary's pre-call top plus one), and
luaD_seterrorobj never changes the stack top (it overwrites a slot in
place and pushes nothing). -/
theorem pcall_status_no_unwind (f : Ldo.ProtBody) (L : Ldo.lua_State)
    (hpanic : (f L).2 = true) :
    (Ldo.luaD_pcall_safe f L).2 = Ldo.LuaStatus.RuntimeError ∧
    (Ldo.luaD_pcall_safe f L).1.stack = (f L).1.stack ∧
    (∀ (M : Ldo.lua_State) (errcode : Ldo.LuaStatus) (oldtop : Nat),
      (Ldo.luaD_seterrorobj M errcode oldtop).stack.top = M.stack.top) := by
  refine ⟨?_, ?_, ?_⟩
  · simp [Ldo.luaD_pcall_safe, Ldo.luaD_rawrunprotected, hpanic]
  · simp [Ldo.luaD_pcall_safe, Ldo.luaD_rawrunprotected, hpanic]
  · intro M errcode oldtop
    unfold Ldo.luaD_seterrorobj
    by_cases h : oldtop < M.stack.values.length
    · rw [if_pos h]
      show (Ldo.LuaStack.set M.stack oldtop _).top = M.stack.top
      unfold Ldo.LuaStack.set
      rw [if_pos h]
    · rw [if_neg h]

theorem pcall_status_no_unwind_witness :
    (pushTwoThenPanic (Ldo.lua_State.new 4)).2 = true ∧
    ((Ldo.luaD_pcall_safe pushTwoThenPanic (Ldo.lua_State.new 4)).2 =
       Ldo.LuaStatus.RuntimeError ∧
     (Ldo.luaD_pcall_safe pushTwoThenPanic (Ldo.lua_State.new 4)).1.stack =
       (pushTwoThenPanic (Ldo.lua_State.new 4)).1.stack ∧
     (∀ (M : Ldo.lua_State) (errcode : Ldo.LuaStatus) (oldtop : Nat),
       (Ldo.luaD_seterrorobj M errcode oldtop).stack.top = M.stack.top)) :=
  ⟨rfl, pcall_status_no_unwind pushTwoThenPanic (Ldo.lua_State.new 4) rfl⟩

theorem pcall_unwind_cex :
    Ldo.luaD_savestack (Ldo.lua_State.new 4) = 0 ∧
    (Ldo.luaD_pcall_safe pushTwoThenPanic (Ldo.lua_State.new 4)).2 =
      Ldo.LuaStatus.RuntimeError ∧
    (Ldo.luaD_pcall_safe pushTwoThenPanic
        (Ldo.lua_State.new 4)).1.stack.top = 2 ∧
    (Ldo.luaD_pcall_safe pushTwoThenPanic
        (Ldo.lua_State.new 4)).1.stack.top ≠
      Ldo.luaD_savestack (Ldo.lua_State.new 4) + 1 :=
  ⟨rfl, rfl, rfl, by decide⟩

/-- C4: The resume-gating claim fails in the code for a coroutine dead by
normal return: luaB_coresume rejects exactly the threads whose raw status is
neither LUA_OK nor LUA_YIELD, and a returned coroutine carries LUA_OK (with
an empty stack — the configuration luaB_costatus itself reports as dead), so
it passes the gate and is resumed, with the caller's stack mutated.  What
holds instead: for every resume behavior, a thread whose raw status is an
error code is rejected with (false, "cannot resume dead coroutine") as the
two results and the coroutine untouched. -/
theorem coresume_gate (resumeImpl : Coro.Thread → Nat → Coro.Thread × Nat)
    (L co : Coro.Thread) (h1 : ¬co.status = Coro.LUA_YIELD)
    (h2 : ¬co.status = Coro.LUA_OK) :
    Coro.luaB_coresume resumeImpl L co = Coro.coresumeRejected L co ∧
    (Coro.luaB_coresume resumeImpl L co).2.1 = co := by
  have heq : Coro.luaB_coresume resumeImpl L co =
      Coro.coresumeRejected L co := by
    unfold Coro.luaB_coresume
    rw [if_pos ⟨h1, h2⟩]
  exact ⟨heq, by rw [heq]; rfl⟩

theorem coresume_gate_witness :
    (¬Coro.errDeadCo.status = Coro.LUA_YIELD) ∧
    (¬Coro.errDeadCo.status = Coro.LUA_OK) ∧
    (Coro.luaB_coresume Coro.resumeReturnsOk Coro.resumerL Coro.errDeadCo =
       Coro.coresumeRejected Coro.resumerL Coro.errDeadCo ∧
     (Coro.luaB_coresume Coro.resumeReturnsOk Coro.resumerL
        Coro.errDeadCo).2.1 = Coro.errDeadCo) :=
  ⟨by decide, by decide,
   coresume_gate Coro.resumeReturnsOk Coro.resumerL Coro.errDeadCo
     (by decide) (by decide)⟩

theorem coresume_dead_cex :
    Coro.luaB_costatus Coro.deadCo false = "dead" ∧
    Coro.luaB_coresume Coro.resumeReturnsOk Coro.resumerL Coro.deadCo ≠
      Coro.coresumeRejected Coro.resumerL Coro.deadCo ∧
    (Coro.luaB_coresume Coro.resumeReturnsOk Coro.resumerL
       Coro.deadCo).1.stack ≠ Coro.resumerL.stack :=
  ⟨rfl, by decide, by decide⟩

/-! The sweep loop in closed form. -/

theorem countWhite_cons_white (o : GCObject) (r : List GCObject)
    (h : iswhite o = true) : countWhite (o :: r) = countWhite r + 1 := by
  simp [countWhite, List.filter_cons, h]

theorem countWhite_cons_nonwhite (o : GCObject) (r : List GCObject)
    (h : ¬iswhite o = true) : countWhite (o :: r) = countWhite r := by
  simp [countWhite, List.filter_cons, h]

theorem sweepLoop_spec (max n : Nat) :
    ∀ (l : List GCObject) (i swept : Nat), l.length - i ≤ n →
      swept + countWhite (l.drop i) < max →
      sweepLoop max l i swept =
        l.take i ++ ((l.drop i).filter (fun o => !iswhite o)).map makewhite := by
  induction n with
  | zero =>
    intro l i swept hn hs
    rw [sweepLoop, dif_neg (fun hc => by omega)]
    rw [List.drop_eq_nil_of_le (by omega), List.take_of_length_le (by omega)]
    simp
  | succ m ih =>
    intro l i swept hn hs
    by_cases hi : i < l.length
    · have hswlt : swept < max := by omega
      rw [sweepLoop, dif_pos ⟨hi, hswlt⟩]
      show (if iswhite l[i] = true then
          sweepLoop max (l.eraseIdx i) i (swept + 1)
        else sweepLoop max (l.set i (makewhite l[i])) (i + 1) swept) = _
      have hd : l.drop i = l[i] :: l.drop (i + 1) := List.drop_eq_getElem_cons hi
      have hlt : (l.take i).length = i := by
        rw [List.length_take]
        omega
      by_cases hw : iswhite l[i]
      · rw [if_pos hw]
        have herase : l.eraseIdx i = l.take i ++ l.drop (i + 1) :=
          List.eraseIdx_eq_take_drop_succ l i
        have hcw : countWhite (l.drop i) = countWhite (l.drop (i + 1)) + 1 := by
          rw [hd, countWhite_cons_white _ _ hw]
        have hdrop2 : (l.eraseIdx i).drop i = l.drop (i + 1) := by
          have h2 := List.drop_left (l.take i) (l.drop (i + 1))
          rw [hlt] at h2
          rw [herase]
          exact h2
        have htake2 : (l.eraseIdx i).take i = l.take i := by
          have h2 := List.take_left (l.take i) (l.drop (i + 1))
          rw [hlt] at h2
          rw [herase]
          exact h2
        have hlen : (l.eraseIdx i).length - i ≤ m := by
          rw [List.length_eraseIdx_of_lt hi]
          omega
        rw [ih (l.eraseIdx i) i (swept + 1) hlen (by rw [hdrop2]; omega)]
        have hfilw : List.filter (fun o => !iswhite o)
            (l[i] :: l.drop (i + 1)) =
            List.filter (fun o => !iswhite o) (l.drop (i + 1)) := by
          simp only [List.filter_cons, hw]
          simp
        rw [htake2, hdrop2, hd, hfilw]
      · rw [if_neg hw]
        have hb : iswhite l[i] = false := by
          cases hx : iswhite l[i]
          · rfl
          · exact absurd hx hw
        have hset : l.set i (makewhite l[i]) =
            l.take i ++ makewhite l[i] :: l.drop (i + 1) :=
          List.set_eq_take_cons_drop _ hi
        have hcw : countWhite (l.drop i) = countWhite (l.drop (i + 1)) := by
          rw [hd, countWhite_cons_nonwhite _ _ hw]
        have hpre : (l.take i ++ [makewhite l[i]]).length = i + 1 := by
          rw [List.length_append, hlt]
          rfl
        have hassoc : l.take i ++ makewhite l[i] :: l.drop (i + 1) =
            (l.take i ++ [makewhite l[i]]) ++ l.drop (i + 1) := by
          simp
        have hdrop2 : (l.set i (makewhite l[i])).drop (i + 1) =
            l.drop (i + 1) := by
          have h2 := List.drop_left (l.take i ++ [makewhite l[i]])
            (l.drop (i + 1))
          rw [hpre] at h2
          rw [hset, hassoc]
          exact h2
        have htake2 : (l.set i (makewhite l[i])).take (i + 1) =
            l.take i ++ [makewhite l[i]] := by
          have h2 := List.take_left (l.take i ++ [makewhite l[i]])
            (l.drop (i + 1))
          rw [hpre] at h2
          rw [hset, hassoc]
          exact h2
        have hlen : (l.set i (makewhite l[i])).length - (i + 1) ≤ m := by
          rw [List.length_set]
          omega
        rw [ih (l.set i (makewhite l[i])) (i + 1) swept hlen
              (by rw [hdrop2]; omega)]
        have hfil : List.filter (fun o => !iswhite o) (l[i] :: l.drop (i + 1)) =
            l[i] :: List.filter (fun o => !iswhite o) (l.drop (i + 1)) := by
          simp only [List.filter_cons, hb]
          simp
        rw [htake2, hdrop2, hd, hfil, List.map_cons]
        simp [List.append_assoc]
    · rw [sweepLoop, dif_neg (fun hc => hi hc.1)]
      rw [List.drop_eq_nil_of_le (by omega), List.take_of_length_le (by omega)]
      simp

/-- C5: The sweep-selectivity claim fails in the code: sweep_list consults
no current-white designation.  What holds instead: within the removal
budget, one sweep pass removes exactly the objects carrying either white
bit — the stale white and the current white alike, so objects allocated
after sweeping began do not survive — and every survivor is recolored to
white-0 unconditionally (not to the new current white). -/
theorem sweep_removes_both_whites (l : List GCObject) (max : Nat)
    (h : countWhite l < max) :
    (sweep_list l max).1 = (l.filter (fun o => !iswhite o)).map makewhite := by
  show sweepLoop max l 0 0 = _
  rw [sweepLoop_spec max l.length l 0 0 (by omega) (by simpa using h)]
  simp

theorem sweep_removes_both_whites_witness :
    countWhite [⟨WHITE1BIT, .Str⟩, ⟨BLACKBIT, .Str⟩] < GCSWEEPMAX ∧
    (sweep_list [⟨WHITE1BIT, .Str⟩, ⟨BLACKBIT, .Str⟩] GCSWEEPMAX).1 =
      (([⟨WHITE1BIT, .Str⟩, ⟨BLACKBIT, .Str⟩] : List GCObject).filter
        (fun o => !iswhite o)).map makewhite :=
  ⟨by decide, sweep_removes_both_whites _ _ (by decide)⟩

theorem sweep_white_cex :
    atomicFlipWhite WHITE0BIT = WHITE1BIT ∧
    (sweep_list [⟨WHITE1BIT, .Str⟩] GCSWEEPMAX).1 = [] ∧
    (sweep_list [⟨BLACKBIT, .Str⟩] GCSWEEPMAX).1 = [⟨WHITE0BIT, .Str⟩] ∧
    WHITE0BIT ≠ atomicFlipWhite WHITE0BIT := by
  refine ⟨rfl, ?_, ?_, by decide⟩
  · show sweepLoop GCSWEEPMAX [⟨WHITE1BIT, .Str⟩] 0 0 = []
    rw [sweepLoop_spec GCSWEEPMAX 1 _ 0 0 (by decide) (by decide)]
    rfl
  · show sweepLoop GCSWEEPMAX [⟨BLACKBIT, .Str⟩] 0 0 = [⟨WHITE0BIT, .Str⟩]
    rw [sweepLoop_spec GCSWEEPMAX 1 _ 0 0 (by decide) (by decide)]
    rfl

/-- C6: The write-barrier claim fails in the code: Table::set performs no
barrier call at all — the stored object is kept with its mark untouched, so
a white object stored into a blackened holder stays white and the next
sweep removes it.  What holds of luaC_barrier itself (which no mutation
path invokes): on a black holder and a white referent it re-grays the
holder (the gray-list enqueue its comment announces is absent). -/
theorem barrier_regrays (o v : GCObject) (ho : isblack o = true)
    (hv : iswhite v = true) :
    isgray (luaC_barrier o v) = true ∧
    (∀ (t : Table) (k : LuaValue),
      (t.set k (.Object v)).get k = some (.Object v)) := by
  constructor
  · unfold luaC_barrier
    rw [if_pos ⟨ho, hv⟩]
    show (!((o.marked &&& (0xFF ^^^ MASKCOLORS)) &&& WHITEBITS != 0) &&
          !((o.marked &&& (0xFF ^^^ MASKCOLORS)) &&& BLACKBIT != 0)) = true
    have hA : (0xFF ^^^ MASKCOLORS) &&& WHITEBITS = 0 := by decide
    have hB : (0xFF ^^^ MASKCOLORS) &&& BLACKBIT = 0 := by decide
    rw [Nat.and_assoc, Nat.and_assoc, hA, hB, Nat.and_zero]
    rfl
  · intro t k
    exact get_set_self t k (.Object v)

theorem barrier_regrays_witness :
    isblack blackHolder = true ∧ iswhite freshWhite = true ∧
    (isgray (luaC_barrier blackHolder freshWhite) = true ∧
     (∀ (t : Table) (k : LuaValue),
       (t.set k (.Object freshWhite)).get k = some (.Object freshWhite))) :=
  ⟨rfl, rfl, barrier_regrays blackHolder freshWhite rfl rfl⟩

theorem barrier_missing_cex :
    isblack blackHolder = true ∧ iswhite freshWhite = true ∧
    (Table.new.set (.Int 1) (.Object freshWhite)).get (.Int 1) =
      some (.Object freshWhite) ∧
    (sweep_list [freshWhite] GCSWEEPMAX).1 = [] := by
  refine ⟨rfl, rfl, rfl, ?_⟩
  show sweepLoop GCSWEEPMAX [freshWhite] 0 0 = []
  rw [sweepLoop_spec GCSWEEPMAX 1 _ 0 0 (by decide) (by decide)]
  rfl

end Skyla
